import Mathlib

/-!
Verification development for the brag-sh usage-aggregation pipeline.

This file gives a shallow embedding in Lean 4 of the core pipeline of the
repository — `aggregateUsage` (src/lib/usage-aggregate.ts),
`applyCumulativeAdjustments` and `mergeAggregates` (src/lib/usage-state.ts),
`buildSyncPayload` (src/lib/payload.ts), the cursor logic of
`parseJsonLinesFileWithCursor` (src/lib/usage-parser.ts), and the
early-abort prefix of `runSyncOnce` (src/commands/sync.ts) together with
`readSyncState` (src/lib/state.ts) — and proves the documented behavioural
properties of these functions.

Modelling conventions:
- JavaScript numbers holding token counts are modelled as `Int` (all the
  code paths in scope only add, subtract, compare and clamp them).
- A TypeScript optional field `x?: T` is an `Option T`.
- A JavaScript `Map<string, V>`, and likewise a plain object
  `Record<string, V>` whose keys contain `"::"` (hence are never
  array-index-like), preserves insertion order: lookup finds the first
  binding, update of an existing key keeps its position, and insertion of
  a new key appends.  Both are modelled as an association list
  `List (String × V)` with `mapGet`/`mapSet` below.
- `String.prototype.localeCompare` on the day/model strings is modelled as
  ordinary lexicographic comparison of the character sequences
  (`strLt`/`strLe` below), and `Array.prototype.sort` with the two-level
  comparator as a sort by that relation.  All entries fed to the sort have
  pairwise-distinct `(day, model)` pairs, so stability is irrelevant.
-/

namespace Brag

/-- Lexicographic strict comparison of character lists, with characters
compared by code point.  Used to model `localeCompare` of day and model
strings. -/
def charsLt : List Char → List Char → Bool
  | [], [] => false
  | [], _ :: _ => true
  | _ :: _, [] => false
  | c :: cs, d :: ds => if c = d then charsLt cs ds else decide (c < d)

/-- Strict lexicographic order on strings (model of `a.localeCompare(b) < 0`). -/
def strLt (a b : String) : Bool := charsLt a.data b.data

/-- Reflexive lexicographic order on strings (model of `a.localeCompare(b) <= 0`). -/
def strLe (a b : String) : Bool := !(strLt b a)

theorem charsLt_irrefl (l : List Char) : charsLt l l = false := by
  induction l with
  | nil => rfl
  | cons c cs ih => simp [charsLt, ih]

theorem charsLt_trans {a b c : List Char} :
    charsLt a b = true → charsLt b c = true → charsLt a c = true := by
  induction a generalizing b c with
  | nil =>
    intro hab hbc
    cases b with
    | nil => simp [charsLt] at hab
    | cons y ys =>
      cases c with
      | nil => simp [charsLt] at hbc
      | cons z zs => simp [charsLt]
  | cons x xs ih =>
    intro hab hbc
    cases b with
    | nil => simp [charsLt] at hab
    | cons y ys =>
      cases c with
      | nil => simp [charsLt] at hbc
      | cons z zs =>
        simp only [charsLt] at hab hbc ⊢
        by_cases hxy : x = y
        · subst hxy
          simp only [if_pos rfl] at hab
          by_cases hyz : x = z
          · subst hyz
            simp only [if_pos rfl] at hbc ⊢
            exact ih hab hbc
          · simp only [if_neg hyz] at hbc ⊢
            exact hbc
        · simp only [if_neg hxy] at hab
          by_cases hyz : y = z
          · subst hyz
            simp only [if_neg hxy]
            exact hab
          · simp only [if_neg hyz] at hbc
            have hxz : x < z := lt_trans (of_decide_eq_true hab) (of_decide_eq_true hbc)
            have hne : x ≠ z := ne_of_lt hxz
            simp [if_neg hne, hxz]

theorem charsLt_connex {a b : List Char} :
    charsLt a b = false → charsLt b a = false → a = b := by
  induction a generalizing b with
  | nil =>
    intro hab _
    cases b with
    | nil => rfl
    | cons y ys => simp [charsLt] at hab
  | cons x xs ih =>
    intro hab hba
    cases b with
    | nil => simp [charsLt] at hba
    | cons y ys =>
      simp only [charsLt] at hab hba
      by_cases hxy : x = y
      · subst hxy
        simp only [if_pos rfl] at hab hba
        rw [ih hab hba]
      · simp only [if_neg hxy] at hab
        simp only [if_neg (Ne.symm hxy)] at hba
        have h1 : ¬ x < y := of_decide_eq_false hab
        have h2 : ¬ y < x := of_decide_eq_false hba
        exact absurd (le_antisymm (not_lt.mp h2) (not_lt.mp h1)) hxy

theorem strLt_irrefl (a : String) : strLt a a = false := charsLt_irrefl a.data

theorem strLt_trans {a b c : String} :
    strLt a b = true → strLt b c = true → strLt a c = true := charsLt_trans

theorem strLt_connex {a b : String} :
    strLt a b = false → strLt b a = false → a = b := by
  intro hab hba
  have h := charsLt_connex hab hba
  cases a; cases b; exact congrArg String.mk h

theorem strLt_asymm {a b : String} (h : strLt a b = true) : strLt b a = false := by
  cases hba : strLt b a with
  | false => rfl
  | true =>
    have := strLt_trans h hba
    rw [strLt_irrefl] at this
    exact absurd this (by simp)

theorem strLt_total (a b : String) : a = b ∨ strLt a b = true ∨ strLt b a = true := by
  cases hab : strLt a b with
  | true => exact Or.inr (Or.inl rfl)
  | false =>
    cases hba : strLt b a with
    | true => exact Or.inr (Or.inr rfl)
    | false => exact Or.inl (strLt_connex hab hba)

/-- The two-level comparator used by `aggregateUsage` and `buildSyncPayload`:
sort by day ascending, then by model.  `lexLEb d1 m1 d2 m2` says entry
`(d1, m1)` may come no later than `(d2, m2)`. -/
def lexLEb (d1 m1 d2 m2 : String) : Bool :=
  if d1 = d2 then strLe m1 m2 else strLt d1 d2

theorem lexLEb_total (d1 m1 d2 m2 : String) :
    lexLEb d1 m1 d2 m2 = true ∨ lexLEb d2 m2 d1 m1 = true := by
  unfold lexLEb
  by_cases hd : d1 = d2
  · subst hd
    simp only [if_pos rfl]
    unfold strLe
    rcases strLt_total m1 m2 with h | h | h
    · subst h; left; simp [strLt_irrefl]
    · left; simp [strLt_asymm h]
    · right; simp [strLt_asymm h]
  · simp only [if_neg hd, if_neg (Ne.symm hd)]
    rcases strLt_total d1 d2 with h | h | h
    · exact absurd h hd
    · exact Or.inl h
    · exact Or.inr h

theorem strLe_trans {a b c : String} :
    strLe a b = true → strLe b c = true → strLe a c = true := by
  unfold strLe
  intro hab hbc
  simp only [Bool.not_eq_true'] at hab hbc ⊢
  cases hca : strLt c a with
  | false => rfl
  | true =>
    rcases strLt_total a b with h | h | h
    · subst h; rw [hca] at hbc; exact hbc
    · have := strLt_trans hca h
      rw [this] at hbc; exact hbc
    · rw [h] at hab; exact hab

theorem strLt_le_trans {a b c : String} :
    strLt a b = true → strLe b c = true → strLt a c = true := by
  intro hab hbc
  unfold strLe at hbc
  simp only [Bool.not_eq_true'] at hbc
  rcases strLt_total b c with h | h | h
  · subst h; exact hab
  · exact strLt_trans hab h
  · rw [h] at hbc; exact absurd hbc (by simp)

theorem strLe_lt_trans {a b c : String} :
    strLe a b = true → strLt b c = true → strLt a c = true := by
  intro hab hbc
  unfold strLe at hab
  simp only [Bool.not_eq_true'] at hab
  rcases strLt_total a b with h | h | h
  · subst h; exact hbc
  · exact strLt_trans h hbc
  · rw [h] at hab; exact absurd hab (by simp)

theorem lexLEb_trans {d1 m1 d2 m2 d3 m3 : String} :
    lexLEb d1 m1 d2 m2 = true → lexLEb d2 m2 d3 m3 = true →
    lexLEb d1 m1 d3 m3 = true := by
  unfold lexLEb
  intro h12 h23
  by_cases ha : d1 = d2 <;> by_cases hb : d2 = d3
  · subst ha; subst hb
    simp only [if_pos rfl] at h12 h23 ⊢
    exact strLe_trans h12 h23
  · subst ha
    simp only [if_pos rfl, if_neg hb] at h12 h23 ⊢
    exact h23
  · subst hb
    simp only [if_pos rfl, if_neg ha] at h12 h23 ⊢
    exact h12
  · simp only [if_neg ha, if_neg hb] at h12 h23
    have h13 : strLt d1 d3 = true := strLt_trans h12 h23
    have hne : d1 ≠ d3 := by
      intro h
      subst h
      rw [strLt_asymm h12] at h23
      exact absurd h23 (by simp)
    simp [if_neg hne, h13]

/-! ### Data model (src/lib/usage-types.ts, src/lib/usage-parser.ts) -/

/-- `TokenTotals` from src/lib/usage-types.ts: all five axes optional. -/
structure TokenTotals where
  input : Option Int := none
  output : Option Int := none
  cache : Option Int := none
  thinking : Option Int := none
  total : Option Int := none
deriving Repr, DecidableEq

/-- `RequiredTotals` from src/lib/usage-types.ts: all five axes present. -/
structure RequiredTotals where
  input : Int
  output : Int
  cache : Int
  thinking : Int
  total : Int
deriving Repr, DecidableEq

/-- The `mode` discriminant of a usage record (`"delta" | "cumulative"`). -/
inductive Mode where
  | delta
  | cumulative
deriving Repr, DecidableEq

/-- `UsageRecord` from src/lib/usage-parser.ts. -/
structure UsageRecord where
  day : String
  model : String
  tokens : TokenTotals
  source : String
  mode : Option Mode := none
deriving Repr, DecidableEq

/-- `AggregatedUsage` from src/lib/usage-aggregate.ts. -/
structure AggregatedUsage where
  day : String
  model : String
  tokens : RequiredTotals
deriving Repr, DecidableEq

/-- `emptyTotals()` from src/lib/usage-state.ts (also the zero-initialised
entry literals in src/lib/usage-aggregate.ts). -/
def emptyTotals : RequiredTotals :=
  { input := 0, output := 0, cache := 0, thinking := 0, total := 0 }

/-- `normalizeTotals` from src/lib/usage-state.ts: each missing axis becomes 0. -/
def normalizeTotals (t : TokenTotals) : RequiredTotals :=
  { input := t.input.getD 0
    output := t.output.getD 0
    cache := t.cache.getD 0
    thinking := t.thinking.getD 0
    total := t.total.getD 0 }

/-- One axis of `addToken` from src/lib/usage-aggregate.ts: an `undefined`
value leaves the target axis unchanged, a present value is added. -/
def addTok (cur : Int) (v : Option Int) : Int :=
  match v with
  | none => cur
  | some x => cur + x

/-- The five `addToken` calls of the delta branch of `aggregateUsage`,
combined componentwise. -/
def addTokens (t : RequiredTotals) (d : TokenTotals) : RequiredTotals :=
  { input := addTok t.input d.input
    output := addTok t.output d.output
    cache := addTok t.cache d.cache
    thinking := addTok t.thinking d.thinking
    total := addTok t.total d.total }

/-- The five `Math.max(entry.tokens.x, record.tokens.x ?? 0)` updates of the
cumulative branch of `aggregateUsage`, combined componentwise. -/
def maxTokens (t : RequiredTotals) (d : TokenTotals) : RequiredTotals :=
  { input := max t.input (d.input.getD 0)
    output := max t.output (d.output.getD 0)
    cache := max t.cache (d.cache.getD 0)
    thinking := max t.thinking (d.thinking.getD 0)
    total := max t.total (d.total.getD 0) }

/-- Componentwise addition of two `RequiredTotals`.  This is what
`addToken`/`addTotals` perform when every source field is present (the
second loop of `aggregateUsage` and the loop of `mergeAggregates`). -/
def addReq (t u : RequiredTotals) : RequiredTotals :=
  { input := t.input + u.input
    output := t.output + u.output
    cache := t.cache + u.cache
    thinking := t.thinking + u.thinking
    total := t.total + u.total }

/-! ### Insertion-ordered string maps

Model of a JavaScript `Map<string, V>` (and of a plain object keyed by
`day::model`-style strings): `mapGet` finds the first binding of a key,
`mapSet` overwrites an existing binding in place or appends a new one. -/

/-- Lookup in an insertion-ordered string map. -/
def mapGet {α : Type} (m : List (String × α)) (k : String) : Option α :=
  match m with
  | [] => none
  | (k2, v) :: rest => if k2 = k then some v else mapGet rest k

/-- Update in an insertion-ordered string map: replace the first binding of
the key in place, or append a new binding. -/
def mapSet {α : Type} (m : List (String × α)) (k : String) (v : α) :
    List (String × α) :=
  match m with
  | [] => [(k, v)]
  | (k2, v2) :: rest => if k2 = k then (k, v) :: rest else (k2, v2) :: mapSet rest k v

theorem mapGet_mapSet_self {α : Type} (m : List (String × α)) (k : String) (v : α) :
    mapGet (mapSet m k v) k = some v := by
  induction m with
  | nil => simp [mapGet, mapSet]
  | cons p rest ih =>
    obtain ⟨k2, v2⟩ := p
    by_cases h : k2 = k
    · simp [mapSet, mapGet, h]
    · simp [mapSet, mapGet, h, ih]

theorem mapGet_mapSet_ne {α : Type} (m : List (String × α)) {k k2 : String} (v : α)
    (h : k ≠ k2) : mapGet (mapSet m k v) k2 = mapGet m k2 := by
  induction m with
  | nil => simp [mapGet, mapSet, h]
  | cons p rest ih =>
    obtain ⟨k3, v3⟩ := p
    by_cases h3 : k3 = k
    · subst h3
      simp [mapSet, mapGet, h]
    · simp only [mapSet, if_neg h3, mapGet]
      by_cases h32 : k3 = k2
      · simp [h32]
      · simp [h32, ih]

theorem mapGet_append {α : Type} (m1 m2 : List (String × α)) (k : String) :
    mapGet (m1 ++ m2) k = (mapGet m1 k).or (mapGet m2 k) := by
  induction m1 with
  | nil => simp [mapGet]
  | cons p rest ih =>
    obtain ⟨k2, v2⟩ := p
    by_cases h : k2 = k
    · simp [mapGet, h]
    · simp [mapGet, h, ih]

/-! ### aggregateUsage (src/lib/usage-aggregate.ts lines 17-132) -/

/-- The `day::model` grouping key of `aggregateUsage` (and of the daily
totals ledger). -/
def recordKey (r : UsageRecord) : String := r.day ++ "::" ++ r.model

/-- The `day::model::source` grouping key of the cumulative branch of
`aggregateUsage`. -/
def cumGroupKey (r : UsageRecord) : String :=
  r.day ++ "::" ++ r.model ++ "::" ++ r.source

/-- The `day::model` key of an aggregated entry. -/
def entryKey (e : AggregatedUsage) : String := e.day ++ "::" ++ e.model

/-- One iteration of the first loop of `aggregateUsage` (lines 21-70),
acting on the pair (byKey, cumulativeBySource). -/
def aggStep (st : List (String × AggregatedUsage) × List (String × AggregatedUsage))
    (r : UsageRecord) :
    List (String × AggregatedUsage) × List (String × AggregatedUsage) :=
  if r.mode = some Mode.cumulative then
    let ck := cumGroupKey r
    let entry := (mapGet st.2 ck).getD { day := r.day, model := r.model, tokens := emptyTotals }
    (st.1, mapSet st.2 ck { entry with tokens := maxTokens entry.tokens r.tokens })
  else
    let k := recordKey r
    let entry := (mapGet st.1 k).getD { day := r.day, model := r.model, tokens := emptyTotals }
    (mapSet st.1 k { entry with tokens := addTokens entry.tokens r.tokens }, st.2)

/-- One iteration of the second loop of `aggregateUsage` (lines 72-95):
fold one cumulative per-source entry into the byKey map. -/
def cumFoldStep (b : List (String × AggregatedUsage)) (p : String × AggregatedUsage) :
    List (String × AggregatedUsage) :=
  let e := p.2
  let k := entryKey e
  let agg := (mapGet b k).getD { day := e.day, model := e.model, tokens := emptyTotals }
  mapSet b k { agg with tokens := addReq agg.tokens e.tokens }

/-- The total-derivation pass of `aggregateUsage` (lines 98-122) applied to
one entry. -/
def finalizeEntry (e : AggregatedUsage) : AggregatedUsage :=
  let outputTotal := e.tokens.output + e.tokens.thinking
  let inputTotal :=
    if e.tokens.cache > e.tokens.input then e.tokens.input + e.tokens.cache
    else if e.tokens.input > 0 then e.tokens.input
    else e.tokens.cache
  let baseSum := inputTotal + outputTotal
  if baseSum > 0 then { e with tokens := { e.tokens with total := baseSum } }
  else if e.tokens.total = 0 then
    let fallbackSum := e.tokens.input + e.tokens.output + e.tokens.cache + e.tokens.thinking
    if fallbackSum > 0 then { e with tokens := { e.tokens with total := fallbackSum } }
    else e
  else e

/-- The sort comparator of `aggregateUsage` (lines 124-129): day ascending,
then model. -/
def aggLE (a b : AggregatedUsage) : Prop :=
  lexLEb a.day a.model b.day b.model = true

instance : DecidableRel aggLE := fun a b => by
  unfold aggLE; infer_instance

instance : IsTotal AggregatedUsage aggLE :=
  ⟨fun a b => lexLEb_total a.day a.model b.day b.model⟩

instance : IsTrans AggregatedUsage aggLE :=
  ⟨fun _ _ _ => lexLEb_trans⟩

/-- `aggregateUsage` from src/lib/usage-aggregate.ts: group delta records by
`day::model` (summing axes), group cumulative records by
`day::model::source` (taking per-axis maxima), fold the cumulative groups
into the byKey map, derive totals, and sort. -/
def aggregateUsage (records : List UsageRecord) : List AggregatedUsage :=
  let st := records.foldl aggStep ([], [])
  let byKey := st.2.foldl cumFoldStep st.1
  let aggregated := (byKey.map (·.2)).map finalizeEntry
  List.insertionSort aggLE aggregated

/-! ### applyCumulativeAdjustments (src/lib/usage-state.ts lines 103-174) -/

/-- The `source::day::model` key of the persisted cumulative-snapshot map. -/
def cumStateKey (r : UsageRecord) : String :=
  r.source ++ "::" ++ r.day ++ "::" ++ r.model

/-- View a `RequiredTotals` as a `TokenTotals` with every axis present (the
shape of the `tokens` field of an emitted synthetic delta record). -/
def RequiredTotals.toTokens (t : RequiredTotals) : TokenTotals :=
  { input := some t.input
    output := some t.output
    cache := some t.cache
    thinking := some t.thinking
    total := some t.total }

/-- Componentwise subtraction `current - previous` (lines 126-132). -/
def subReq (c p : RequiredTotals) : RequiredTotals :=
  { input := c.input - p.input
    output := c.output - p.output
    cache := c.cache - p.cache
    thinking := c.thinking - p.thinking
    total := c.total - p.total }

/-- The counter-reset test (lines 134-139): some axis delta is negative. -/
def hasResetB (d : RequiredTotals) : Bool :=
  decide (d.input < 0) || decide (d.output < 0) || decide (d.cache < 0) ||
    decide (d.thinking < 0) || decide (d.total < 0)

/-- The clamp of negative deltas to zero (lines 148-152). -/
def clampNonneg (d : RequiredTotals) : RequiredTotals :=
  { input := max 0 d.input
    output := max 0 d.output
    cache := max 0 d.cache
    thinking := max 0 d.thinking
    total := max 0 d.total }

/-- The all-axes-zero test (lines 154-160). -/
def allZeroB (d : RequiredTotals) : Bool :=
  decide (d.input = 0) && decide (d.output = 0) && decide (d.cache = 0) &&
    decide (d.thinking = 0) && decide (d.total = 0)

/-- The warning emitted on a detected counter reset (line 143). -/
def resetWarning (source : String) : String :=
  "Cumulative totals reset detected for " ++ source ++ "."

/-- The loop of `applyCumulativeAdjustments` (lines 116-171), threading the
next cumulative map and the per-run set of already-warned reset keys, and
returning the emitted records, the final cumulative map and the warnings. -/
def cumAdjLoop :
    List UsageRecord → List (String × RequiredTotals) → List String →
    List UsageRecord × List (String × RequiredTotals) × List String
  | [], cum, _ => ([], cum, [])
  | r :: rs, cum, resetKeys =>
    if r.mode = some Mode.cumulative then
      let key := cumStateKey r
      let previous := (mapGet cum key).getD emptyTotals
      let current := normalizeTotals r.tokens
      let delta := subReq current previous
      let warned := hasResetB delta && !(resetKeys.contains key)
      let warnsHere : List String := if warned then [resetWarning r.source] else []
      let resetKeys2 := if warned then key :: resetKeys else resetKeys
      let clamped := clampNonneg delta
      if allZeroB clamped then
        let rest := cumAdjLoop rs (mapSet cum key current) resetKeys2
        (rest.1, rest.2.1, warnsHere ++ rest.2.2)
      else
        let rest := cumAdjLoop rs (mapSet cum key current) resetKeys2
        ({ r with tokens := clamped.toTokens, mode := some Mode.delta } :: rest.1,
          rest.2.1, warnsHere ++ rest.2.2)
    else
      let rest := cumAdjLoop rs cum resetKeys
      (r :: rest.1, rest.2.1, rest.2.2)

/-- The result record of `applyCumulativeAdjustments`. -/
structure CumAdjResult where
  records : List UsageRecord
  cumulative : List (String × RequiredTotals)
  warnings : List String
deriving Repr, DecidableEq

/-- `applyCumulativeAdjustments` from src/lib/usage-state.ts: convert
cumulative snapshot records into deltas against the persisted baseline,
detecting counter resets, and pass every other record through. -/
def applyCumulativeAdjustments (records : List UsageRecord)
    (cumulative : List (String × RequiredTotals)) : CumAdjResult :=
  let res := cumAdjLoop records cumulative []
  { records := res.1, cumulative := res.2.1, warnings := res.2.2 }

/-- The per-axis delta of a cumulative record against the currently stored
baseline for its key (default all-zero). -/
def rawDelta (r : UsageRecord) (c : List (String × RequiredTotals)) : RequiredTotals :=
  subReq (normalizeTotals r.tokens) ((mapGet c (cumStateKey r)).getD emptyTotals)

/-- Every axis that is present is non-negative. -/
def optNonneg : Option Int → Prop
  | none => True
  | some x => 0 ≤ x

/-- All five token axes of a record are non-negative where present. -/
def tokensNonneg (t : TokenTotals) : Prop :=
  optNonneg t.input ∧ optNonneg t.output ∧ optNonneg t.cache ∧
    optNonneg t.thinking ∧ optNonneg t.total

theorem subReq_self (t : RequiredTotals) : subReq t t = emptyTotals := by
  simp [subReq, emptyTotals]

theorem hasResetB_emptyTotals : hasResetB emptyTotals = false := by decide

theorem clampNonneg_emptyTotals : clampNonneg emptyTotals = emptyTotals := by decide

theorem allZeroB_emptyTotals : allZeroB emptyTotals = true := by decide

/-- Processing a single cumulative record always persists the normalized
current snapshot under the record's key, whatever branch is taken. -/
theorem cumAdjLoop_single_cumulative (r : UsageRecord)
    (hm : r.mode = some Mode.cumulative)
    (cum : List (String × RequiredTotals)) (rk : List String) :
    (cumAdjLoop [r] cum rk).2.1 =
      mapSet cum (cumStateKey r) (normalizeTotals r.tokens) := by
  simp only [cumAdjLoop, if_pos hm]
  split <;> rfl

/-- A cumulative usage record with the given key parts and token values. -/
def cumRecord (src day model : String) (t : TokenTotals) : UsageRecord :=
  { day := day, model := model, tokens := t, source := src, mode := some Mode.cumulative }

/-- Re-observing a snapshot that already equals the stored baseline emits
nothing and no warning, and refreshes the stored snapshot. -/
theorem cumAdjLoop_refresh (r : UsageRecord) (hm : r.mode = some Mode.cumulative)
    (cum : List (String × RequiredTotals)) (rk : List String)
    (hbase : mapGet cum (cumStateKey r) = some (normalizeTotals r.tokens)) :
    cumAdjLoop [r] cum rk =
      ([], mapSet cum (cumStateKey r) (normalizeTotals r.tokens), []) := by
  simp [cumAdjLoop, hm, hbase, subReq_self, hasResetB_emptyTotals,
    clampNonneg_emptyTotals, allZeroB_emptyTotals]

theorem applyCumulativeAdjustments_cumulative_eq (r : UsageRecord)
    (hm : r.mode = some Mode.cumulative) (c : List (String × RequiredTotals)) :
    (applyCumulativeAdjustments [r] c).cumulative =
      mapSet c (cumStateKey r) (normalizeTotals r.tokens) := by
  simp only [applyCumulativeAdjustments]
  exact cumAdjLoop_single_cumulative r hm c []

/-- C2: `applyCumulativeAdjustments` is idempotent on a repeated cumulative
snapshot.  The first application persists the normalized snapshot as the
baseline for the record's `source::day::model` key; applying the same
single-record batch again emits zero records and zero warnings while
refreshing the stored snapshot to the same value. -/
theorem applyCumulativeAdjustments_idempotent (src day model : String)
    (t : TokenTotals) (c : List (String × RequiredTotals)) :
    mapGet (applyCumulativeAdjustments [cumRecord src day model t] c).cumulative
        (cumStateKey (cumRecord src day model t)) = some (normalizeTotals t) ∧
    (applyCumulativeAdjustments [cumRecord src day model t]
        (applyCumulativeAdjustments [cumRecord src day model t] c).cumulative).records = [] ∧
    (applyCumulativeAdjustments [cumRecord src day model t]
        (applyCumulativeAdjustments [cumRecord src day model t] c).cumulative).warnings = [] ∧
    mapGet (applyCumulativeAdjustments [cumRecord src day model t]
        (applyCumulativeAdjustments [cumRecord src day model t] c).cumulative).cumulative
        (cumStateKey (cumRecord src day model t)) = some (normalizeTotals t) := by
  have hm : (cumRecord src day model t).mode = some Mode.cumulative := rfl
  have ht : (cumRecord src day model t).tokens = t := rfl
  have h1 := applyCumulativeAdjustments_cumulative_eq (cumRecord src day model t) hm c
  rw [ht] at h1
  have hget1 : mapGet (applyCumulativeAdjustments [cumRecord src day model t] c).cumulative
      (cumStateKey (cumRecord src day model t)) = some (normalizeTotals t) := by
    rw [h1]; exact mapGet_mapSet_self _ _ _
  have h2 := cumAdjLoop_refresh (cumRecord src day model t) hm
    (applyCumulativeAdjustments [cumRecord src day model t] c).cumulative []
    (by rw [ht]; exact hget1)
  rw [ht] at h2
  have h2' : cumAdjLoop [cumRecord src day model t]
      (cumAdjLoop [cumRecord src day model t] c []).2.1 [] =
      ([], mapSet (cumAdjLoop [cumRecord src day model t] c []).2.1
        (cumStateKey (cumRecord src day model t)) (normalizeTotals t), []) := by
    simpa only [applyCumulativeAdjustments] using h2
  refine ⟨hget1, ?_, ?_, ?_⟩
  · simp only [applyCumulativeAdjustments, h2']
  · simp only [applyCumulativeAdjustments, h2']
  · simp only [applyCumulativeAdjustments, h2']
    exact mapGet_mapSet_self _ _ _

/-- C3: a cumulative record whose delta against the stored baseline is
negative on some axis triggers exactly one reset warning for the batch,
yields either no record or a single synthetic delta record whose axes are
the negative deltas clamped to zero (hence never negative), and still
persists the new snapshot as the baseline. -/
theorem applyCumulativeAdjustments_reset (r : UsageRecord)
    (c : List (String × RequiredTotals))
    (hm : r.mode = some Mode.cumulative)
    (hneg : hasResetB (rawDelta r c) = true) :
    (applyCumulativeAdjustments [r] c).warnings = [resetWarning r.source] ∧
    ((applyCumulativeAdjustments [r] c).records = [] ∨
      (applyCumulativeAdjustments [r] c).records =
        [{ r with tokens := (clampNonneg (rawDelta r c)).toTokens, mode := some Mode.delta }]) ∧
    (∀ rec ∈ (applyCumulativeAdjustments [r] c).records, tokensNonneg rec.tokens) ∧
    mapGet (applyCumulativeAdjustments [r] c).cumulative (cumStateKey r) =
      some (normalizeTotals r.tokens) := by
  have hclamp : tokensNonneg (clampNonneg (rawDelta r c)).toTokens := by
    refine ⟨?_, ?_, ?_, ?_, ?_⟩ <;>
      simp only [clampNonneg, RequiredTotals.toTokens, optNonneg] <;>
      exact le_max_left 0 _
  have hneg2 : hasResetB (subReq (normalizeTotals r.tokens)
      ((mapGet c (cumStateKey r)).getD emptyTotals)) = true := hneg
  cases hz : allZeroB (clampNonneg (rawDelta r c)) with
  | true =>
    have hz2 : allZeroB (clampNonneg (subReq (normalizeTotals r.tokens)
        ((mapGet c (cumStateKey r)).getD emptyTotals))) = true := hz
    have hloop : cumAdjLoop [r] c [] =
        ([], mapSet c (cumStateKey r) (normalizeTotals r.tokens),
          [resetWarning r.source]) := by
      simp [cumAdjLoop, hm, hneg2, hz2]
    refine ⟨?_, Or.inl ?_, ?_, ?_⟩
    · simp only [applyCumulativeAdjustments, hloop]
    · simp only [applyCumulativeAdjustments, hloop]
    · intro rec hrec
      simp only [applyCumulativeAdjustments, hloop, List.not_mem_nil] at hrec
    · simp only [applyCumulativeAdjustments, hloop]
      exact mapGet_mapSet_self _ _ _
  | false =>
    have hz2 : allZeroB (clampNonneg (subReq (normalizeTotals r.tokens)
        ((mapGet c (cumStateKey r)).getD emptyTotals))) = false := hz
    have hloop : cumAdjLoop [r] c [] =
        ([{ r with
              tokens := (clampNonneg (rawDelta r c)).toTokens,
              mode := some Mode.delta }],
          mapSet c (cumStateKey r) (normalizeTotals r.tokens),
          [resetWarning r.source]) := by
      simp [cumAdjLoop, hm, hneg2, hz2, rawDelta]
    refine ⟨?_, Or.inr ?_, ?_, ?_⟩
    · simp only [applyCumulativeAdjustments, hloop]
    · simp only [applyCumulativeAdjustments, hloop]
    · intro rec hrec
      simp only [applyCumulativeAdjustments, hloop, List.mem_singleton] at hrec
      rw [hrec]
      exact hclamp
    · simp only [applyCumulativeAdjustments, hloop]
      exact mapGet_mapSet_self _ _ _

/-- Concrete sample for the counter-reset claim: stored baseline
(7, 8, -, -, 15), new snapshot (5, 5, -, -, 10). -/
def resetSampleRecord : UsageRecord :=
  cumRecord "source-a" "2026-01-05" "gpt-4"
    { input := some 5, output := some 5, total := some 10 }

/-- Stored cumulative baseline for the counter-reset sample. -/
def resetSamplePrev : List (String × RequiredTotals) :=
  [("source-a::2026-01-05::gpt-4",
    { input := 7, output := 8, cache := 0, thinking := 0, total := 15 })]

/-- Witness for C3 at the concrete counter-reset sample. -/
theorem applyCumulativeAdjustments_reset_witness :
    (resetSampleRecord.mode = some Mode.cumulative ∧
      hasResetB (rawDelta resetSampleRecord resetSamplePrev) = true) ∧
    ((applyCumulativeAdjustments [resetSampleRecord] resetSamplePrev).warnings =
        [resetWarning resetSampleRecord.source] ∧
      ((applyCumulativeAdjustments [resetSampleRecord] resetSamplePrev).records = [] ∨
        (applyCumulativeAdjustments [resetSampleRecord] resetSamplePrev).records =
          [{ resetSampleRecord with
              tokens := (clampNonneg (rawDelta resetSampleRecord resetSamplePrev)).toTokens,
              mode := some Mode.delta }]) ∧
      (∀ rec ∈ (applyCumulativeAdjustments [resetSampleRecord] resetSamplePrev).records,
        tokensNonneg rec.tokens) ∧
      mapGet (applyCumulativeAdjustments [resetSampleRecord] resetSamplePrev).cumulative
          (cumStateKey resetSampleRecord) =
        some (normalizeTotals resetSampleRecord.tokens)) :=
  ⟨⟨rfl, by decide⟩,
    applyCumulativeAdjustments_reset resetSampleRecord resetSamplePrev rfl (by decide)⟩

theorem cumAdjLoop_passthrough (records : List UsageRecord)
    (cum : List (String × RequiredTotals)) (rk : List String) :
    List.Sublist (records.filter (fun r => decide (r.mode ≠ some Mode.cumulative)))
      (cumAdjLoop records cum rk).1 := by
  induction records generalizing cum rk with
  | nil => simp [cumAdjLoop]
  | cons r rs ih =>
    by_cases hm : r.mode = some Mode.cumulative
    · have hfilt : List.filter (fun x => decide (x.mode ≠ some Mode.cumulative)) (r :: rs) =
          List.filter (fun x => decide (x.mode ≠ some Mode.cumulative)) rs := by
        simp [List.filter_cons, hm]
      rw [hfilt]
      simp only [cumAdjLoop, if_pos hm]
      split
      · exact ih _ _
      · exact List.Sublist.cons _ (ih _ _)
    · have hfilt : List.filter (fun x => decide (x.mode ≠ some Mode.cumulative)) (r :: rs) =
          r :: List.filter (fun x => decide (x.mode ≠ some Mode.cumulative)) rs := by
        simp [List.filter_cons, hm]
      rw [hfilt]
      simp only [cumAdjLoop, if_neg hm]
      exact List.Sublist.cons₂ _ (ih _ _)

/-- C10: every non-cumulative input record passes through
`applyCumulativeAdjustments` unchanged and in its original relative order:
the non-cumulative sublist of the input is a sublist of the output. -/
theorem applyCumulativeAdjustments_frame (records : List UsageRecord)
    (c : List (String × RequiredTotals)) :
    List.Sublist (records.filter (fun r => decide (r.mode ≠ some Mode.cumulative)))
      (applyCumulativeAdjustments records c).records := by
  simpa only [applyCumulativeAdjustments] using cumAdjLoop_passthrough records c []

/-! ### mergeAggregates (src/lib/usage-state.ts lines 87-101)

Value-level model: the source first makes a shallow copy
`const next = { ...existing }` and then folds the batch into `next`.
Observed as a map of values, the result is the fold below; the
reference-level (aliasing) behaviour of the same code is modelled
separately by `mergeAggregatesRef`. -/

/-- `mergeAggregates` from src/lib/usage-state.ts: add each aggregate's five
axes onto the persisted totals for its `day::model` key, creating a
zero-valued entry for a new key. -/
def mergeAggregates (existing : List (String × RequiredTotals))
    (aggregates : List AggregatedUsage) : List (String × RequiredTotals) :=
  aggregates.foldl (fun next aggregate =>
    let key := aggregate.day ++ "::" ++ aggregate.model
    let entry := (mapGet next key).getD emptyTotals
    mapSet next key (addReq entry aggregate.tokens)) existing

/-- Componentwise sum of the tokens of all aggregates in the batch whose
`day::model` key is `k`. -/
def batchSum (aggs : List AggregatedUsage) (k : String) : RequiredTotals :=
  (aggs.filter (fun a => decide (entryKey a = k))).foldl
    (fun t a => addReq t a.tokens) emptyTotals

theorem addReq_assoc (x y z : RequiredTotals) :
    addReq (addReq x y) z = addReq x (addReq y z) := by
  cases x; cases y; cases z
  simp [addReq, add_assoc]

theorem addReq_emptyTotals_left (t : RequiredTotals) : addReq emptyTotals t = t := by
  cases t; simp [addReq, emptyTotals]

theorem addReq_emptyTotals_right (t : RequiredTotals) : addReq t emptyTotals = t := by
  cases t; simp [addReq, emptyTotals]

theorem foldl_addReq (l : List AggregatedUsage) (t : RequiredTotals) :
    l.foldl (fun u a => addReq u a.tokens) t =
      addReq t (l.foldl (fun u a => addReq u a.tokens) emptyTotals) := by
  induction l generalizing t with
  | nil => simp [addReq_emptyTotals_right]
  | cons a l ih =>
    simp only [List.foldl_cons]
    rw [ih, ih (addReq emptyTotals a.tokens), addReq_emptyTotals_left, addReq_assoc]

theorem batchSum_cons_self (a : AggregatedUsage) (rest : List AggregatedUsage) :
    batchSum (a :: rest) (entryKey a) =
      addReq a.tokens (batchSum rest (entryKey a)) := by
  have hfilt : List.filter (fun x => decide (entryKey x = entryKey a)) (a :: rest) =
      a :: List.filter (fun x => decide (entryKey x = entryKey a)) rest := by
    simp [List.filter_cons]
  rw [batchSum, hfilt, List.foldl_cons, foldl_addReq, addReq_emptyTotals_left]
  rfl

theorem batchSum_cons_ne (a : AggregatedUsage) (rest : List AggregatedUsage)
    {k : String} (h : entryKey a ≠ k) :
    batchSum (a :: rest) k = batchSum rest k := by
  simp [batchSum, List.filter_cons, h]

theorem batchSum_cons_eq (a : AggregatedUsage) (rest : List AggregatedUsage)
    {k : String} (h : entryKey a = k) :
    batchSum (a :: rest) k = addReq a.tokens (batchSum rest k) := by
  subst h
  exact batchSum_cons_self a rest

/-- Pointwise description of `mergeAggregates`: a key hit by the batch maps
to the existing entry (or a zero entry) plus the batch's summed
contribution, and a key not hit by the batch is left untouched. -/
theorem mergeAggregates_get (existing : List (String × RequiredTotals))
    (aggs : List AggregatedUsage) (k : String) :
    mapGet (mergeAggregates existing aggs) k =
      if aggs.any (fun a => decide (entryKey a = k)) then
        some (addReq ((mapGet existing k).getD emptyTotals) (batchSum aggs k))
      else mapGet existing k := by
  induction aggs generalizing existing with
  | nil => simp [mergeAggregates, batchSum]
  | cons a rest ih =>
    have hstep : mergeAggregates existing (a :: rest) =
        mergeAggregates (mapSet existing (entryKey a)
          (addReq ((mapGet existing (entryKey a)).getD emptyTotals) a.tokens)) rest := by
      simp [mergeAggregates, entryKey]
    rw [hstep, ih]
    by_cases hk : entryKey a = k
    · subst hk
      rw [mapGet_mapSet_self]
      have hany : (a :: rest).any (fun x => decide (entryKey x = entryKey a)) = true := by
        simp [List.any_cons]
      rw [if_pos hany, batchSum_cons_self]
      by_cases hrest : rest.any (fun x => decide (entryKey x = entryKey a)) = true
      · rw [if_pos hrest]
        simp only [Option.getD_some]
        rw [← addReq_assoc]
      · rw [if_neg hrest]
        have hbs : batchSum rest (entryKey a) = emptyTotals := by
          have hfilt : rest.filter (fun x => decide (entryKey x = entryKey a)) = [] := by
            rw [List.filter_eq_nil_iff]
            intro x hx
            by_contra hcon
            exact hrest (List.any_eq_true.mpr ⟨x, hx, by simpa using hcon⟩)
          simp [batchSum, hfilt]
        rw [hbs, addReq_emptyTotals_right]
    · rw [mapGet_mapSet_ne _ _ hk, batchSum_cons_ne a rest hk]
      have hhead : (decide (entryKey a = k)) = false := by simpa using hk
      simp only [List.any_cons, hhead, Bool.false_or]

/-- All five axes of a `RequiredTotals` are non-negative. -/
def reqNonneg (t : RequiredTotals) : Prop :=
  0 ≤ t.input ∧ 0 ≤ t.output ∧ 0 ≤ t.cache ∧ 0 ≤ t.thinking ∧ 0 ≤ t.total

/-- Componentwise order on `RequiredTotals`. -/
def reqLE (v w : RequiredTotals) : Prop :=
  v.input ≤ w.input ∧ v.output ≤ w.output ∧ v.cache ≤ w.cache ∧
    v.thinking ≤ w.thinking ∧ v.total ≤ w.total

theorem foldl_addReq_mono (l : List AggregatedUsage) (t : RequiredTotals)
    (h : ∀ a ∈ l, reqNonneg a.tokens) :
    reqLE t (l.foldl (fun u a => addReq u a.tokens) t) := by
  induction l generalizing t with
  | nil =>
    exact ⟨le_refl _, le_refl _, le_refl _, le_refl _, le_refl _⟩
  | cons a l ih =>
    simp only [List.foldl_cons]
    have ha := h a (List.mem_cons_self a l)
    have hstep : reqLE t (addReq t a.tokens) := by
      obtain ⟨h1, h2, h3, h4, h5⟩ := ha
      exact ⟨le_add_of_nonneg_right h1, le_add_of_nonneg_right h2,
        le_add_of_nonneg_right h3, le_add_of_nonneg_right h4,
        le_add_of_nonneg_right h5⟩
    have hrest := ih (addReq t a.tokens) (fun x hx => h x (List.mem_cons_of_mem a hx))
    obtain ⟨s1, s2, s3, s4, s5⟩ := hstep
    obtain ⟨r1, r2, r3, r4, r5⟩ := hrest
    exact ⟨le_trans s1 r1, le_trans s2 r2, le_trans s3 r3,
      le_trans s4 r4, le_trans s5 r5⟩

/-- C6: `mergeAggregates` is purely additive and never decrements the daily
totals ledger.  For every key, the result maps a key hit by the batch to
existing-or-zero plus the batch contribution, leaves every other key's
value untouched, and — when the batch axes are non-negative — every axis of
every pre-existing entry is componentwise non-decreasing. -/
theorem mergeAggregates_monotone (existing : List (String × RequiredTotals))
    (aggs : List AggregatedUsage)
    (hnn : ∀ a ∈ aggs, reqNonneg a.tokens) (k : String) :
    (mapGet (mergeAggregates existing aggs) k =
      if aggs.any (fun a => decide (entryKey a = k)) then
        some (addReq ((mapGet existing k).getD emptyTotals) (batchSum aggs k))
      else mapGet existing k) ∧
    (∀ v, mapGet existing k = some v →
      ∃ w, mapGet (mergeAggregates existing aggs) k = some w ∧ reqLE v w) := by
  refine ⟨mergeAggregates_get existing aggs k, ?_⟩
  intro v hv
  rw [mergeAggregates_get existing aggs k]
  by_cases hany : aggs.any (fun a => decide (entryKey a = k)) = true
  · rw [if_pos hany, hv]
    refine ⟨_, rfl, ?_⟩
    have hbs : reqLE v (addReq v (batchSum aggs k)) := by
      have hnn2 : ∀ a ∈ aggs.filter (fun a => decide (entryKey a = k)), reqNonneg a.tokens :=
        fun a ha => hnn a (List.mem_of_mem_filter ha)
      have := foldl_addReq_mono (aggs.filter (fun a => decide (entryKey a = k))) v hnn2
      rw [foldl_addReq] at this
      exact this
    simpa using hbs
  · rw [if_neg hany, hv]
    exact ⟨v, rfl, le_refl _, le_refl _, le_refl _, le_refl _, le_refl _⟩

/-- Concrete ledger for the C6 witness. -/
def ledgerSample : List (String × RequiredTotals) :=
  [("2026-01-02::gpt-4", { input := 1, output := 1, cache := 0, thinking := 0, total := 2 }),
   ("2026-01-01::gpt-4", { input := 9, output := 0, cache := 0, thinking := 0, total := 9 })]

/-- Concrete aggregate batch for the C6 witness. -/
def aggsSample : List AggregatedUsage :=
  [{ day := "2026-01-02", model := "gpt-4",
     tokens := { input := 2, output := 0, cache := 0, thinking := 0, total := 2 } }]

/-- Witness for C6 at a concrete ledger, batch and key. -/
theorem mergeAggregates_monotone_witness :
    (∀ a ∈ aggsSample, reqNonneg a.tokens) ∧
    ((mapGet (mergeAggregates ledgerSample aggsSample) "2026-01-02::gpt-4" =
      if aggsSample.any (fun a => decide (entryKey a = "2026-01-02::gpt-4")) then
        some (addReq ((mapGet ledgerSample "2026-01-02::gpt-4").getD emptyTotals)
          (batchSum aggsSample "2026-01-02::gpt-4"))
      else mapGet ledgerSample "2026-01-02::gpt-4") ∧
    (∀ v, mapGet ledgerSample "2026-01-02::gpt-4" = some v →
      ∃ w, mapGet (mergeAggregates ledgerSample aggsSample) "2026-01-02::gpt-4" = some w ∧
        reqLE v w)) :=
  ⟨by
    intro a ha
    simp only [aggsSample, List.mem_singleton] at ha
    rw [ha]
    exact ⟨by norm_num, by norm_num, by norm_num, by norm_num, by norm_num⟩,
   mergeAggregates_monotone ledgerSample aggsSample
     (by
       intro a ha
       simp only [aggsSample, List.mem_singleton] at ha
       rw [ha]
       exact ⟨by norm_num, by norm_num, by norm_num, by norm_num, by norm_num⟩)
     "2026-01-02::gpt-4"⟩

/-! ### mergeAggregates, reference-level model (src/lib/usage-state.ts lines 87-101)

The source computes `const next = { ...existing }`: a fresh top-level
object whose values are the same `RequiredTotals` object references as the
caller's map.  `addTotals(entry, …)` then mutates the looked-up entry in
place.  To reason about this aliasing we model a heap of `RequiredTotals`
cells addressed by `Nat` references: `hget`/`hset` read and write a cell,
a map is a list of (key, reference) bindings, and allocation of
`emptyTotals()` appends a fresh cell. -/

/-- Read a heap cell (out-of-range reads return a dummy zero cell). -/
def hget : List RequiredTotals → Nat → RequiredTotals
  | [], _ => emptyTotals
  | v :: _, 0 => v
  | _ :: t, n + 1 => hget t n

/-- Write a heap cell in place. -/
def hset : List RequiredTotals → Nat → RequiredTotals → List RequiredTotals
  | [], _, _ => []
  | _ :: t, 0, v => v :: t
  | x :: t, n + 1, v => x :: hset t n v

theorem hget_hset_self (h : List RequiredTotals) (i : Nat) (v : RequiredTotals)
    (hi : i < h.length) : hget (hset h i v) i = v := by
  induction h generalizing i with
  | nil => simp at hi
  | cons x t ih =>
    cases i with
    | zero => rfl
    | succ n => exact ih n (by simpa using hi)

theorem hget_hset_ne (h : List RequiredTotals) {i j : Nat} (v : RequiredTotals)
    (hij : i ≠ j) : hget (hset h i v) j = hget h j := by
  induction h generalizing i j with
  | nil => rfl
  | cons x t ih =>
    cases i with
    | zero =>
      cases j with
      | zero => exact absurd rfl hij
      | succ m => rfl
    | succ n =>
      cases j with
      | zero => rfl
      | succ m => exact ih (fun hc => hij (by rw [hc]))

theorem hset_length (h : List RequiredTotals) (i : Nat) (v : RequiredTotals) :
    (hset h i v).length = h.length := by
  induction h generalizing i with
  | nil => rfl
  | cons x t ih =>
    cases i with
    | zero => rfl
    | succ n => simp [hset, ih]

theorem hget_append_left (h t : List RequiredTotals) {i : Nat} (hi : i < h.length) :
    hget (h ++ t) i = hget h i := by
  induction h generalizing i with
  | nil => simp at hi
  | cons x s ih =>
    cases i with
    | zero => rfl
    | succ n => exact ih (by simpa using hi)

theorem mapGet_mem {α : Type} : ∀ {m : List (String × α)} {k : String} {v : α},
    mapGet m k = some v → (k, v) ∈ m := by
  intro m
  induction m with
  | nil => intro k v h; simp [mapGet] at h
  | cons p rest ih =>
    intro k v h
    obtain ⟨k2, v2⟩ := p
    by_cases hk : k2 = k
    · subst hk
      have e : mapGet ((k2, v2) :: rest) k2 = some v2 := by simp [mapGet]
      have h2 : v2 = v := Option.some.inj (e.symm.trans h)
      subst h2
      exact List.mem_cons_self _ _
    · have e : mapGet ((k2, v2) :: rest) k = mapGet rest k := by simp [mapGet, hk]
      rw [e] at h
      exact List.mem_cons_of_mem _ (ih h)

theorem mapGet_of_mem_nodup {α : Type} {m : List (String × α)}
    (hnd : (m.map Prod.fst).Nodup) {p : String × α} (hp : p ∈ m) :
    mapGet m p.1 = some p.2 := by
  induction m with
  | nil => simp at hp
  | cons q rest ih =>
    rcases List.mem_cons.mp hp with hq | hq
    · subst hq
      simp [mapGet]
    · have hne : q.1 ≠ p.1 := by
        intro hc
        have : q.1 ∈ rest.map Prod.fst := by
          rw [hc]
          exact List.mem_map_of_mem Prod.fst hq
        exact (List.nodup_cons.mp hnd).1 this
      simp only [mapGet, if_neg hne]
      exact ih (List.nodup_cons.mp hnd).2 hq

/-- One loop iteration of `mergeAggregates` at the reference level: look up
the entry object for the aggregate's key (mutating it in place when the
binding exists) or allocate a fresh zero cell, add the aggregate's tokens
into the cell, and bind the key. -/
def refMergeStep (st : List RequiredTotals × List (String × Nat))
    (aggregate : AggregatedUsage) : List RequiredTotals × List (String × Nat) :=
  match mapGet st.2 (aggregate.day ++ "::" ++ aggregate.model) with
  | some r => (hset st.1 r (addReq (hget st.1 r) aggregate.tokens), st.2)
  | none =>
    (st.1 ++ [addReq emptyTotals aggregate.tokens],
      st.2 ++ [(aggregate.day ++ "::" ++ aggregate.model, st.1.length)])

/-- `mergeAggregates` at the reference level: starting from the caller's
heap and the shallow copy of the caller's bindings, fold the batch.
Returns the final heap and the result bindings. -/
def mergeAggregatesRef (heap : List RequiredTotals) (existing : List (String × Nat))
    (aggregates : List AggregatedUsage) : List RequiredTotals × List (String × Nat) :=
  aggregates.foldl refMergeStep (heap, existing)

theorem refMergeStep_hit (st : List RequiredTotals × List (String × Nat))
    (a : AggregatedUsage) {r : Nat} (hm : mapGet st.2 (entryKey a) = some r) :
    refMergeStep st a = (hset st.1 r (addReq (hget st.1 r) a.tokens), st.2) := by
  unfold refMergeStep
  rw [show (a.day ++ "::" ++ a.model) = entryKey a from rfl, hm]

theorem refMergeStep_miss (st : List RequiredTotals × List (String × Nat))
    (a : AggregatedUsage) (hm : mapGet st.2 (entryKey a) = none) :
    refMergeStep st a =
      (st.1 ++ [addReq emptyTotals a.tokens], st.2 ++ [(entryKey a, st.1.length)]) := by
  unfold refMergeStep
  rw [show (a.day ++ "::" ++ a.model) = entryKey a from rfl, hm]

theorem refFold_cells (existing : List (String × Nat))
    (hkeys : (existing.map Prod.fst).Nodup)
    (hrefs : (existing.map Prod.snd).Nodup)
    (L : Nat) (hvalid : ∀ p ∈ existing, p.2 < L)
    (aggs : List AggregatedUsage) :
    ∀ (h : List RequiredTotals) (ext : List (String × Nat)),
      L ≤ h.length → (∀ q ∈ ext, L ≤ q.2) →
      ∀ p ∈ existing,
        hget (aggs.foldl refMergeStep (h, existing ++ ext)).1 p.2 =
          addReq (hget h p.2) (batchSum aggs p.1) := by
  induction aggs with
  | nil =>
    intro h ext _ _ p _
    simp [batchSum, addReq_emptyTotals_right]
  | cons a rest ih =>
    intro h ext hL hext p hp
    rw [List.foldl_cons]
    cases hm : mapGet (existing ++ ext) (entryKey a) with
    | some r =>
      rw [refMergeStep_hit (h, existing ++ ext) a hm]
      have hL2 : L ≤ (hset h r (addReq (hget h r) a.tokens)).length := by
        rw [hset_length]; exact hL
      have htail := ih (hset h r (addReq (hget h r) a.tokens)) ext hL2 hext p hp
      rw [htail]
      by_cases hpk : entryKey a = p.1
      · have hr : r = p.2 := by
          have hpget : mapGet (existing ++ ext) p.1 = some p.2 := by
            rw [mapGet_append]
            rw [mapGet_of_mem_nodup hkeys hp]
            rfl
          rw [hpk] at hm
          rw [hpget] at hm
          exact (Option.some.injEq _ _).mp hm.symm
        subst hr
        rw [hget_hset_self h p.2 _ ((hvalid p hp).trans_le hL)]
        rw [batchSum_cons_eq a rest hpk, ← addReq_assoc]
      · have hr : r ≠ p.2 := by
          rw [mapGet_append] at hm
          cases hex : mapGet existing (entryKey a) with
          | some r2 =>
            rw [hex] at hm
            have : r2 = r := by simpa [Option.or] using hm
            subst this
            have hqmem := mapGet_mem hex
            intro hc
            have := List.inj_on_of_nodup_map hrefs hqmem hp (by simpa using hc)
            rw [← this] at hpk
            exact hpk rfl
          | none =>
            rw [hex] at hm
            have hextm : mapGet ext (entryKey a) = some r := by simpa [Option.or] using hm
            have hq := mapGet_mem hextm
            have := hext _ hq
            intro hc
            have hlt := hvalid p hp
            rw [← hc] at hlt
            exact absurd (this.trans_lt hlt) (lt_irrefl L)
        rw [hget_hset_ne h _ hr, batchSum_cons_ne a rest (fun hc => hpk hc)]
    | none =>
      rw [refMergeStep_miss (h, existing ++ ext) a hm]
      have hnotex : entryKey a ≠ p.1 := by
        intro hc
        have hpget : mapGet (existing ++ ext) p.1 = some p.2 := by
          rw [mapGet_append, mapGet_of_mem_nodup hkeys hp]
          rfl
        rw [hc, hpget] at hm
        exact Option.noConfusion hm
      have hext2 : ∀ q ∈ ext ++ [(entryKey a, h.length)], L ≤ q.2 := by
        intro q hq
        rcases List.mem_append.mp hq with hq | hq
        · exact hext q hq
        · simp only [List.mem_singleton] at hq
          rw [hq]
          exact hL
      have hL2 : L ≤ (h ++ [addReq emptyTotals a.tokens]).length := by
        rw [List.length_append]
        exact hL.trans (Nat.le_add_right _ _)
      have hassoc : (existing ++ ext) ++ [(entryKey a, h.length)] =
          existing ++ (ext ++ [(entryKey a, h.length)]) := by
        rw [List.append_assoc]
      rw [hassoc]
      have htail := ih (h ++ [addReq emptyTotals a.tokens])
        (ext ++ [(entryKey a, h.length)]) hL2 hext2 p hp
      rw [htail]
      rw [hget_append_left h _ ((hvalid p hp).trans_le hL)]
      rw [batchSum_cons_ne a rest hnotex]

theorem refFold_next (existing : List (String × Nat)) (aggs : List AggregatedUsage) :
    ∀ (h : List RequiredTotals) (ext : List (String × Nat)),
      ∃ ext2, (aggs.foldl refMergeStep (h, existing ++ ext)).2 = existing ++ ext2 := by
  induction aggs with
  | nil => intro h ext; exact ⟨ext, rfl⟩
  | cons a rest ih =>
    intro h ext
    rw [List.foldl_cons]
    cases hm : mapGet (existing ++ ext) (entryKey a) with
    | some r =>
      rw [refMergeStep_hit (h, existing ++ ext) a hm]
      exact ih _ ext
    | none =>
      rw [refMergeStep_miss (h, existing ++ ext) a hm]
      have hassoc : (existing ++ ext) ++ [(entryKey a, h.length)] =
          existing ++ (ext ++ [(entryKey a, h.length)]) := by
        rw [List.append_assoc]
      rw [hassoc]
      exact ih _ _

theorem batchSum_eq_empty {aggs : List AggregatedUsage} {k : String}
    (h : ¬ aggs.any (fun a => decide (entryKey a = k)) = true) :
    batchSum aggs k = emptyTotals := by
  have hfilt : aggs.filter (fun a => decide (entryKey a = k)) = [] := by
    rw [List.filter_eq_nil_iff]
    intro a ha
    by_contra hcon
    exact h (List.any_eq_true.mpr ⟨a, ha, by simpa using hcon⟩)
  simp [batchSum, hfilt]

/-- Caller's heap for the C9 aliasing counterexample: one `RequiredTotals`
cell holding (1, 0, 0, 0, 0). -/
def heapSample : List RequiredTotals :=
  [{ input := 1, output := 0, cache := 0, thinking := 0, total := 0 }]

/-- Caller's daily-totals map for the C9 counterexample: one key bound to
cell 0 of `heapSample`. -/
def refsSample : List (String × Nat) :=
  [("2026-01-02::gpt-4", 0)]

/-- C9 counterexample: `mergeAggregates` does mutate an entry reachable
from the caller's map.  With the caller's entry cell holding (1,0,0,0,0)
and a batch touching the same `day::model` key, after the call the
caller-visible cell holds (3,0,0,0,2), not its pre-call value. -/
theorem mergeAggregatesRef_mutates_entry :
    hget (mergeAggregatesRef heapSample refsSample aggsSample).1 0 ≠ hget heapSample 0 ∧
    hget (mergeAggregatesRef heapSample refsSample aggsSample).1 0 =
      { input := 3, output := 0, cache := 0, thinking := 0, total := 2 } :=
  ⟨by decide, by decide⟩

/-- C9 amended: the result's top-level bindings extend the caller's map
(bindings of existing keys are unchanged — the shallow copy gives a fresh
top-level object), and entries of keys not present in the batch are
unchanged; but the `RequiredTotals` entry objects shared with the caller
for keys hit by the batch are mutated in place to the merged value. -/
theorem mergeAggregatesRef_frame (heap : List RequiredTotals)
    (existing : List (String × Nat)) (aggs : List AggregatedUsage)
    (hkeys : (existing.map Prod.fst).Nodup)
    (hrefs : (existing.map Prod.snd).Nodup)
    (hvalid : ∀ p ∈ existing, p.2 < heap.length) :
    (∀ p ∈ existing,
      hget (mergeAggregatesRef heap existing aggs).1 p.2 =
        if aggs.any (fun a => decide (entryKey a = p.1)) then
          addReq (hget heap p.2) (batchSum aggs p.1)
        else hget heap p.2) ∧
    (∀ k, (mapGet existing k).isSome = true →
      mapGet (mergeAggregatesRef heap existing aggs).2 k = mapGet existing k) := by
  constructor
  · intro p hp
    have base := refFold_cells existing hkeys hrefs heap.length hvalid aggs heap []
      (le_refl _) (by intro q hq; simp at hq) p hp
    rw [List.append_nil] at base
    rw [show mergeAggregatesRef heap existing aggs =
      aggs.foldl refMergeStep (heap, existing) from rfl]
    by_cases hany : aggs.any (fun a => decide (entryKey a = p.1)) = true
    · rw [if_pos hany]
      exact base
    · rw [if_neg hany, base, batchSum_eq_empty hany, addReq_emptyTotals_right]
  · intro k hk
    obtain ⟨ext2, he⟩ := refFold_next existing aggs heap []
    rw [List.append_nil] at he
    rw [show mergeAggregatesRef heap existing aggs =
      aggs.foldl refMergeStep (heap, existing) from rfl, he, mapGet_append]
    cases hm : mapGet existing k with
    | some v => rfl
    | none =>
      rw [hm] at hk
      simp at hk

/-- Witness for the amended C9 theorem at the concrete aliasing sample. -/
theorem mergeAggregatesRef_frame_witness :
    ((refsSample.map Prod.fst).Nodup ∧ (refsSample.map Prod.snd).Nodup ∧
      (∀ p ∈ refsSample, p.2 < heapSample.length)) ∧
    ((∀ p ∈ refsSample,
      hget (mergeAggregatesRef heapSample refsSample aggsSample).1 p.2 =
        if aggsSample.any (fun a => decide (entryKey a = p.1)) then
          addReq (hget heapSample p.2) (batchSum aggsSample p.1)
        else hget heapSample p.2) ∧
    (∀ k, (mapGet refsSample k).isSome = true →
      mapGet (mergeAggregatesRef heapSample refsSample aggsSample).2 k =
        mapGet refsSample k)) :=
  ⟨⟨by decide, by decide, by decide⟩,
    mergeAggregatesRef_frame heapSample refsSample aggsSample
      (by decide) (by decide) (by decide)⟩

/-! ### parseJsonLinesFileWithCursor (src/lib/usage-parser.ts lines 445-518)

The cursor logic is modelled over an abstract line type `Line` and an
abstract per-line processor `procLine lastModel lineNumber line`, standing
for the body of the `for await` loop after the skip check (trimming,
`JSON.parse`, model enrichment and `parseJsonValue`, lines 480-503): it
returns the records and warnings contributed by that line and the updated
`lastModel` context.  The file is a stat (size, mtimeMs) plus its list of
lines.  The claims under verification concern only the cursor skipping,
appending and truncation logic, which is independent of the line bodies. -/

/-- `FileCursor` from src/lib/cursor.ts, restricted to the four fields that
`parseJsonLinesFileWithCursor` reads or writes (the optional
`lastCumulativeTotals` and `lastSignatures` fields are never touched by
this function). -/
structure FileCursor where
  lastLine : Option Nat := none
  lastSize : Option Nat := none
  lastMtimeMs : Option Int := none
  lastModel : Option String := none
deriving Repr, DecidableEq

/-- The stat of a file: current size and modification time. -/
structure FileStatM where
  size : Nat
  mtimeMs : Int
deriving Repr, DecidableEq

/-- `FileParseResult` from src/lib/usage-parser.ts (records, warnings and
the updated cursor). -/
structure FileParseResult where
  records : List UsageRecord
  warnings : List String
  cursor : Option FileCursor
deriving Repr, DecidableEq

/-- Accumulated state of the line loop (lines 471-504): the collected
records and warnings, the threaded `lastModel`, the final `lineNumber`,
and the `sawNewLines` flag. -/
structure LineLoopResult where
  records : List UsageRecord
  warnings : List String
  lastModel : Option String
  lineNumber : Nat
  sawNewLines : Bool
deriving Repr, DecidableEq

/-- The `for await (const line of rl)` loop (lines 474-504): count every
line, skip lines up to the starting line, and otherwise run the line body
(abstracted as `procLine`) threading the `lastModel` context. -/
def lineLoop {Line : Type}
    (procLine : Option String → Nat → Line → List UsageRecord × List String × Option String) :
    List Line → Nat → Nat → Option String → Bool → LineLoopResult
  | [], n, _, lm, saw => ⟨[], [], lm, n, saw⟩
  | l :: ls, n0, startLine, lm, saw =>
    let n := n0 + 1
    if n ≤ startLine then lineLoop procLine ls n startLine lm saw
    else
      let step := procLine lm n l
      let rest := lineLoop procLine ls n startLine step.2.2 true
      ⟨step.1 ++ rest.records, step.2.1 ++ rest.warnings,
        rest.lastModel, rest.lineNumber, rest.sawNewLines⟩

/-- The truncation test of line 463:
`cursor?.lastSize !== undefined && stats.size < cursor.lastSize`. -/
def shrankCheck (size : Nat) : Option Nat → Bool
  | some s0 => decide (size < s0)
  | none => false

/-- The truthiness filter on the carried model when building the next
cursor (line 514): `null` and the empty string are dropped. -/
def truthyModel : Option String → Option String
  | some s => if s = "" then none else some s
  | none => none

/-- `parseJsonLinesFileWithCursor` from src/lib/usage-parser.ts: skip the
file entirely when size and mtime match the cursor, reset on truncation
with a warning, otherwise stream the lines from the recorded line, and
return the updated cursor. -/
def parseJsonLinesFileWithCursor {Line : Type}
    (procLine : Option String → Nat → Line → List UsageRecord × List String × Option String)
    (stat : FileStatM) (lines : List Line) (cursor : Option FileCursor) :
    FileParseResult :=
  if cursor.bind FileCursor.lastSize = some stat.size ∧
      cursor.bind FileCursor.lastMtimeMs = some stat.mtimeMs then
    ⟨[], [], cursor⟩
  else
    let shrunk := shrankCheck stat.size (cursor.bind FileCursor.lastSize)
    let warnsShrink : List String :=
      if shrunk then ["File size shrank; resetting cursor."] else []
    let startLine := if shrunk then 0 else (cursor.bind FileCursor.lastLine).getD 0
    let lastModel := if shrunk then none else cursor.bind FileCursor.lastModel
    let res := lineLoop procLine lines 0 startLine lastModel false
    let noTokenWarn : List String :=
      if res.records = [] ∧ res.sawNewLines = true then
        ["No token usage entries found in file."]
      else []
    ⟨res.records, warnsShrink ++ res.warnings ++ noTokenWarn,
      some ⟨some res.lineNumber, some stat.size, some stat.mtimeMs,
        truthyModel res.lastModel⟩⟩

theorem lineLoop_skip_front {Line : Type}
    (procLine : Option String → Nat → Line → List UsageRecord × List String × Option String)
    (oldLines : List Line) :
    ∀ (newLines : List Line) (k startLine : Nat) (lm : Option String) (saw : Bool),
      k + oldLines.length ≤ startLine →
      lineLoop procLine (oldLines ++ newLines) k startLine lm saw =
        lineLoop procLine newLines (k + oldLines.length) startLine lm saw := by
  induction oldLines with
  | nil =>
    intro newLines k startLine lm saw _
    simp
  | cons l ls ih =>
    intro newLines k startLine lm saw hk
    have hstep : k + 1 ≤ startLine := by
      have : k + 1 ≤ k + (l :: ls ++ newLines).length := by simp
      calc k + 1 ≤ k + (l :: ls).length := by simp
        _ ≤ startLine := hk
    show lineLoop procLine (l :: (ls ++ newLines)) k startLine lm saw = _
    rw [lineLoop]
    rw [if_pos hstep]
    have harith : k + 1 + ls.length = k + (l :: ls).length := by
      simp [List.length_cons]
      omega
    rw [ih newLines (k + 1) startLine lm saw (by omega), harith]

/-- C4: the cursor rules of `parseJsonLinesFileWithCursor`.
(1) When the file's size and mtime both equal the cursor's recorded
values, the scan is skipped: zero records, zero warnings, cursor returned
unchanged.  (2) When the file has only grown by appended lines (cursor
line count equals the old line count, recorded size below the current
size), the returned records are exactly those produced from the appended
lines, independent of the already-consumed prefix.  (3) When the current
size is below the recorded size, the first warning is the shrink warning
and the records equal those of a cursor-free parse from line 0 with the
last-model context discarded. -/
theorem parseJsonLinesFileWithCursor_rules {Line : Type}
    (procLine : Option String → Nat → Line → List UsageRecord × List String × Option String) :
    (∀ (stat : FileStatM) (lines : List Line) (c : FileCursor),
      c.lastSize = some stat.size → c.lastMtimeMs = some stat.mtimeMs →
      parseJsonLinesFileWithCursor procLine stat lines (some c) = ⟨[], [], some c⟩) ∧
    (∀ (stat0 stat1 : FileStatM) (oldLines newLines : List Line) (c : FileCursor),
      c.lastLine = some oldLines.length → c.lastSize = some stat0.size →
      stat0.size < stat1.size →
      (parseJsonLinesFileWithCursor procLine stat1 (oldLines ++ newLines) (some c)).records =
        (lineLoop procLine newLines oldLines.length oldLines.length c.lastModel false).records) ∧
    (∀ (stat : FileStatM) (lines : List Line) (c : FileCursor) (s0 : Nat),
      c.lastSize = some s0 → stat.size < s0 →
      (parseJsonLinesFileWithCursor procLine stat lines (some c)).warnings.head? =
        some "File size shrank; resetting cursor." ∧
      (parseJsonLinesFileWithCursor procLine stat lines (some c)).records =
        (parseJsonLinesFileWithCursor procLine stat lines none).records) := by
  refine ⟨?_, ?_, ?_⟩
  · intro stat lines c hsize hmtime
    unfold parseJsonLinesFileWithCursor
    rw [if_pos]
    constructor
    · simpa using hsize
    · simpa using hmtime
  · intro stat0 stat1 oldLines newLines c hline hsize hlt
    unfold parseJsonLinesFileWithCursor
    rw [if_neg]
    case hnc =>
      intro hc
      obtain ⟨h1, _⟩ := hc
      simp only [Option.some_bind, hsize, Option.some.injEq] at h1
      exact absurd h1 (Nat.ne_of_lt hlt)
    have hshr : shrankCheck stat1.size c.lastSize = false := by
      rw [hsize]
      simp only [shrankCheck, decide_eq_false_iff_not]
      omega
    simp only [Option.some_bind, hshr, Bool.false_eq_true, if_false, hline, Option.getD_some]
    rw [lineLoop_skip_front procLine oldLines newLines 0 oldLines.length c.lastModel false
      (by omega)]
    simp
  · intro stat lines c s0 hsize hlt
    unfold parseJsonLinesFileWithCursor
    rw [if_neg]
    case hnc =>
      intro hc
      obtain ⟨h1, _⟩ := hc
      simp only [Option.some_bind, hsize, Option.some.injEq] at h1
      omega
    have hshr3 : shrankCheck stat.size c.lastSize = true := by
      rw [hsize]
      simp only [shrankCheck, decide_eq_true_eq]
      omega
    refine ⟨?_, ?_⟩
    · simp only [Option.some_bind, hshr3, if_true]
      rfl
    · simp only [Option.some_bind, Option.none_bind, hshr3, if_true]
      simp [shrankCheck]

/-- Concrete line processor for the C4 witness: a line is a flag, a `true`
line contributes one delta record tagged with the carried model. -/
def sampleProcLine : Option String → Nat → Bool → List UsageRecord × List String × Option String :=
  fun lm _ l =>
    if l then
      ([{ day := "2026-01-07", model := lm.getD "unknown",
          tokens := { input := some 1 }, source := "f", mode := some Mode.delta }], [], lm)
    else ([], [], lm)

/-- Witness for C4 at concrete stats, lines and cursors: an unchanged file
is skipped, a grown file is parsed from the appended line only, and a
shrunk file warns and re-parses like a cursor-free scan. -/
theorem parseJsonLinesFileWithCursor_rules_witness :
    (parseJsonLinesFileWithCursor sampleProcLine ⟨10, 5⟩ [true]
        (some ⟨some 1, some 10, some 5, none⟩) =
      ⟨[], [], some ⟨some 1, some 10, some 5, none⟩⟩) ∧
    ((10 : Nat) < 20 ∧
      (parseJsonLinesFileWithCursor sampleProcLine ⟨20, 6⟩ ([true] ++ [true])
          (some ⟨some 1, some 10, some 5, some "m"⟩)).records =
        (lineLoop sampleProcLine [true] 1 1 (some "m") false).records) ∧
    ((5 : Nat) < 10 ∧
      (parseJsonLinesFileWithCursor sampleProcLine ⟨5, 7⟩ [true]
          (some ⟨some 1, some 10, some 5, some "m"⟩)).warnings.head? =
        some "File size shrank; resetting cursor." ∧
      (parseJsonLinesFileWithCursor sampleProcLine ⟨5, 7⟩ [true]
          (some ⟨some 1, some 10, some 5, some "m"⟩)).records =
        (parseJsonLinesFileWithCursor sampleProcLine ⟨5, 7⟩ [true] none).records) := by
  refine ⟨?_, ⟨by omega, ?_⟩, ⟨by omega, ?_, ?_⟩⟩
  · exact (parseJsonLinesFileWithCursor_rules sampleProcLine).1 ⟨10, 5⟩ [true]
      ⟨some 1, some 10, some 5, none⟩ rfl rfl
  · exact (parseJsonLinesFileWithCursor_rules sampleProcLine).2.1 ⟨10, 5⟩ ⟨20, 6⟩
      [true] [true] ⟨some 1, some 10, some 5, some "m"⟩ rfl rfl (by decide)
  · exact ((parseJsonLinesFileWithCursor_rules sampleProcLine).2.2 ⟨5, 7⟩ [true]
      ⟨some 1, some 10, some 5, some "m"⟩ 10 rfl (by decide)).1
  · exact ((parseJsonLinesFileWithCursor_rules sampleProcLine).2.2 ⟨5, 7⟩ [true]
      ⟨some 1, some 10, some 5, some "m"⟩ 10 rfl (by decide)).2

/-! ### runSyncOnce early-abort prefix (src/commands/sync.ts lines 135-193)
and readSyncState (src/lib/state.ts lines 35-50)

`readSyncState` is modelled over the contents of the persisted state file:
absent, corrupt JSON, or a parsed state.  `runSyncOnce` is modelled up to
the two early-abort branches; everything from source discovery onward
(line 195 of sync.ts) is an arbitrary continuation `rest` so that the
abort theorems hold whatever the rest of the pipeline does.  Side effects
are recorded in an explicit trace. -/

/-- `SafeErrorContext` from src/lib/diagnostics.ts (the sanitisation of
message/hint strings is not modelled; C8 does not depend on it; the `at`
field is spelled `errAt` because `at` is reserved in Lean). -/
structure SafeErrorContext where
  errAt : String
  code : String
  message : String
  hint : Option String := none
deriving Repr, DecidableEq

/-- The persisted `SyncState` (src/lib/state.ts), restricted to the fields
the early-abort paths read or write. -/
structure SyncState where
  lastRunAt : Option String := none
  lastStatus : Option String := none
  lastError : Option String := none
  lastErrorContext : Option SafeErrorContext := none
  fileCursors : List (String × FileCursor) := []
  dailyTotals : List (String × RequiredTotals) := []
  cumulativeTotals : List (String × RequiredTotals) := []
deriving Repr, DecidableEq

/-- Content of the persisted state file: absent, corrupt JSON, or parsed. -/
inductive StateFile where
  | absent
  | corrupt
  | parsed (s : SyncState)
deriving Repr, DecidableEq

/-- `readSyncState` from src/lib/state.ts: an absent file yields the
default state, corrupt JSON throws `Invalid sync state JSON at <path>.`,
and otherwise the parsed state is returned. -/
def readSyncState (statePath : String) : StateFile → Except String SyncState
  | StateFile.absent => Except.ok {}
  | StateFile.corrupt => Except.error ("Invalid sync state JSON at " ++ statePath ++ ".")
  | StateFile.parsed s => Except.ok s

/-- Observable side effects of a sync run: state-file writes and the
pipeline stages of lines 195-250 of sync.ts. -/
inductive SyncEffect where
  | writeState (s : SyncState)
  | discoverSources
  | parseSources
  | adjustCumulative
  | aggregate
  | mergeTotals
  | upload
deriving Repr, DecidableEq

/-- The observable summary of a run, mirroring the fields of `SyncResult`
that the early-abort paths populate. -/
structure SyncResultM where
  status : String
  message : Option String := none
  warnings : List String := []
  recordsParsed : Nat := 0
  aggregatedDelta : Nat := 0
  totalTokens : Int := 0
  days : Nat := 0
  models : Nat := 0
deriving Repr, DecidableEq

/-- The error result built by the two early-abort branches of
`runSyncOnce` (all counters zero, no warnings). -/
def errorResult (message : String) : SyncResultM :=
  { status := "error", message := some message }

/-- The prefix of `runSyncOnce` (src/commands/sync.ts lines 146-193): read
the persisted sync state (aborting with a structured error result and no
effects when it is unreadable), then read the config (aborting after
rewriting only the run metadata of the state when it is unreadable), and
otherwise hand over to the rest of the pipeline. -/
def runSyncOnce (statePath : String) (stateFile : StateFile)
    (configRead : Except String Unit) (nowIso : String)
    (rest : SyncState → SyncResultM × List SyncEffect) :
    SyncResultM × List SyncEffect :=
  match readSyncState statePath stateFile with
  | Except.error message => (errorResult message, [])
  | Except.ok syncState =>
    match configRead with
    | Except.error message =>
      let ctx : SafeErrorContext :=
        { errAt := nowIso, code := "SYNC_CONFIG_READ_FAILED", message := message,
          hint := some "Fix the config JSON and retry." }
      (errorResult message,
        [SyncEffect.writeState
          { syncState with
              lastRunAt := some nowIso,
              lastStatus := some "error",
              lastError := some message,
              lastErrorContext := some ctx }])
    | Except.ok _ => rest syncState

/-- A trace contains no pipeline work: no discovery, parsing,
reconciliation, aggregation, merge or upload effect. -/
def noPipelineWork (trace : List SyncEffect) : Prop :=
  ∀ e ∈ trace,
    e ≠ SyncEffect.discoverSources ∧ e ≠ SyncEffect.parseSources ∧
    e ≠ SyncEffect.adjustCumulative ∧ e ≠ SyncEffect.aggregate ∧
    e ≠ SyncEffect.mergeTotals ∧ e ≠ SyncEffect.upload

/-- C8: when the persisted state file holds corrupt JSON, or the config is
unreadable, the run aborts before any pipeline work whatever the rest of
the pipeline would do: the result is a structured error carrying the
failure message, the trace contains no pipeline stage, on the corrupt-state
path nothing at all is written, and on the config path the single state
write leaves the persisted cursors, daily totals and cumulative snapshots
exactly as read (only run metadata changes) — no partial pipeline state is
written. -/
theorem runSyncOnce_aborts_early (statePath nowIso : String)
    (rest : SyncState → SyncResultM × List SyncEffect) :
    (∀ configRead,
      (runSyncOnce statePath StateFile.corrupt configRead nowIso rest).1 =
        errorResult ("Invalid sync state JSON at " ++ statePath ++ ".") ∧
      (runSyncOnce statePath StateFile.corrupt configRead nowIso rest).2 = []) ∧
    (∀ (s : SyncState) (message : String),
      (runSyncOnce statePath (StateFile.parsed s) (Except.error message) nowIso rest).1 =
        errorResult message ∧
      noPipelineWork
        (runSyncOnce statePath (StateFile.parsed s) (Except.error message) nowIso rest).2 ∧
      (∀ s2, SyncEffect.writeState s2 ∈
          (runSyncOnce statePath (StateFile.parsed s) (Except.error message) nowIso rest).2 →
        s2.fileCursors = s.fileCursors ∧ s2.dailyTotals = s.dailyTotals ∧
          s2.cumulativeTotals = s.cumulativeTotals)) := by
  constructor
  · intro configRead
    exact ⟨rfl, rfl⟩
  · intro s message
    have hrun : runSyncOnce statePath (StateFile.parsed s) (Except.error message) nowIso rest =
        (errorResult message,
          [SyncEffect.writeState
            { s with
                lastRunAt := some nowIso,
                lastStatus := some "error",
                lastError := some message,
                lastErrorContext := some
                  { errAt := nowIso, code := "SYNC_CONFIG_READ_FAILED", message := message,
                    hint := some "Fix the config JSON and retry." } }]) := rfl
    rw [hrun]
    refine ⟨rfl, ?_, ?_⟩
    · intro e he
      rw [List.mem_singleton] at he
      subst he
      refine ⟨?_, ?_, ?_, ?_, ?_, ?_⟩ <;> simp
    · intro s2 hs2
      rw [List.mem_singleton] at hs2
      have h2 := SyncEffect.writeState.inj hs2
      rw [h2]
      exact ⟨rfl, rfl, rfl⟩

/-- Witness for C8: a concrete corrupt-state run and a concrete
config-failure run, with a rest continuation that would run the whole
pipeline if it were reached. -/
theorem runSyncOnce_aborts_early_witness :
    ((runSyncOnce "/cfg/state.json" StateFile.corrupt (Except.ok ()) "2026-02-01T00:00:00.000Z"
        (fun s => ({ status := "success" },
          [SyncEffect.discoverSources, SyncEffect.parseSources, SyncEffect.adjustCumulative,
            SyncEffect.aggregate, SyncEffect.mergeTotals, SyncEffect.upload,
            SyncEffect.writeState s]))).1 =
      errorResult ("Invalid sync state JSON at " ++ "/cfg/state.json" ++ ".") ∧
     (runSyncOnce "/cfg/state.json" StateFile.corrupt (Except.ok ()) "2026-02-01T00:00:00.000Z"
        (fun s => ({ status := "success" },
          [SyncEffect.discoverSources, SyncEffect.parseSources, SyncEffect.adjustCumulative,
            SyncEffect.aggregate, SyncEffect.mergeTotals, SyncEffect.upload,
            SyncEffect.writeState s]))).2 = []) ∧
    ((runSyncOnce "/cfg/state.json"
        (StateFile.parsed { dailyTotals := ledgerSample }) (Except.error "Invalid config JSON.")
        "2026-02-01T00:00:00.000Z"
        (fun s => ({ status := "success" }, [SyncEffect.writeState s]))).1 =
      errorResult "Invalid config JSON." ∧
     noPipelineWork
       (runSyncOnce "/cfg/state.json"
         (StateFile.parsed { dailyTotals := ledgerSample }) (Except.error "Invalid config JSON.")
         "2026-02-01T00:00:00.000Z"
         (fun s => ({ status := "success" }, [SyncEffect.writeState s]))).2 ∧
     (∀ s2, SyncEffect.writeState s2 ∈
         (runSyncOnce "/cfg/state.json"
           (StateFile.parsed { dailyTotals := ledgerSample }) (Except.error "Invalid config JSON.")
           "2026-02-01T00:00:00.000Z"
           (fun s => ({ status := "success" }, [SyncEffect.writeState s]))).2 →
       s2.fileCursors = ({ dailyTotals := ledgerSample } : SyncState).fileCursors ∧
         s2.dailyTotals = ({ dailyTotals := ledgerSample } : SyncState).dailyTotals ∧
         s2.cumulativeTotals = ({ dailyTotals := ledgerSample } : SyncState).cumulativeTotals)) :=
  ⟨(runSyncOnce_aborts_early "/cfg/state.json" "2026-02-01T00:00:00.000Z"
      (fun s => ({ status := "success" },
        [SyncEffect.discoverSources, SyncEffect.parseSources, SyncEffect.adjustCumulative,
          SyncEffect.aggregate, SyncEffect.mergeTotals, SyncEffect.upload,
          SyncEffect.writeState s]))).1 (Except.ok ()),
   (runSyncOnce_aborts_early "/cfg/state.json" "2026-02-01T00:00:00.000Z"
      (fun s => ({ status := "success" }, [SyncEffect.writeState s]))).2
     { dailyTotals := ledgerSample } "Invalid config JSON."⟩

/-! ### Group-by analysis of the first loop of aggregateUsage

The single pass over the records updates the two maps independently, so it
factors into a delta-map step and a cumulative-map step.  The delta map is
characterised pointwise; the cumulative map is characterised structurally
(its entry list is needed to analyse the second loop). -/

/-- The updated byKey entry for one delta-branch iteration. -/
def deltaUpdated (b : List (String × AggregatedUsage)) (r : UsageRecord) :
    AggregatedUsage :=
  let entry := (mapGet b (recordKey r)).getD
    { day := r.day, model := r.model, tokens := emptyTotals }
  { entry with tokens := addTokens entry.tokens r.tokens }

/-- The effect of one record on the byKey map. -/
def deltaStep (b : List (String × AggregatedUsage)) (r : UsageRecord) :
    List (String × AggregatedUsage) :=
  if r.mode = some Mode.cumulative then b
  else mapSet b (recordKey r) (deltaUpdated b r)

/-- The updated cumulativeBySource entry for one cumulative-branch iteration. -/
def cumUpdated (c : List (String × AggregatedUsage)) (r : UsageRecord) :
    AggregatedUsage :=
  let entry := (mapGet c (cumGroupKey r)).getD
    { day := r.day, model := r.model, tokens := emptyTotals }
  { entry with tokens := maxTokens entry.tokens r.tokens }

/-- The effect of one record on the cumulativeBySource map. -/
def cumStep (c : List (String × AggregatedUsage)) (r : UsageRecord) :
    List (String × AggregatedUsage) :=
  if r.mode = some Mode.cumulative then mapSet c (cumGroupKey r) (cumUpdated c r)
  else c

theorem aggStep_split (b c : List (String × AggregatedUsage)) (r : UsageRecord) :
    aggStep (b, c) r = (deltaStep b r, cumStep c r) := by
  unfold aggStep deltaStep cumStep deltaUpdated cumUpdated
  split <;> rfl

theorem aggFold_split (records : List UsageRecord) :
    ∀ b c, records.foldl aggStep (b, c) =
      (records.foldl deltaStep b, records.foldl cumStep c) := by
  induction records with
  | nil => intro b c; rfl
  | cons r rs ih =>
    intro b c
    rw [List.foldl_cons, aggStep_split, List.foldl_cons, List.foldl_cons]
    exact ih _ _

/-- The non-cumulative records of a batch. -/
def deltaRecs (records : List UsageRecord) : List UsageRecord :=
  records.filter (fun r => decide (¬ r.mode = some Mode.cumulative))

/-- The non-cumulative records contributing to key `k`. -/
def matchingDelta (records : List UsageRecord) (k : String) : List UsageRecord :=
  (deltaRecs records).filter (fun r => decide (recordKey r = k))

/-- Fold the `addToken` updates of a record list onto a starting value. -/
def sumTokensFrom (t : RequiredTotals) (rs : List UsageRecord) : RequiredTotals :=
  rs.foldl (fun u r => addTokens u r.tokens) t

/-- The value at key `k` of the byKey map built from `records` on top of an
initial value: the initial entry extended by all matching contributions,
or a fresh entry carrying the first matching record's day and model. -/
def deltaCombined (records : List UsageRecord) (k : String) :
    Option AggregatedUsage → Option AggregatedUsage
  | some e => some { e with tokens := sumTokensFrom e.tokens (matchingDelta records k) }
  | none =>
    match (deltaRecs records).find? (fun r => decide (recordKey r = k)) with
    | some r0 =>
      some
        { day := r0.day, model := r0.model,
          tokens := sumTokensFrom emptyTotals (matchingDelta records k) }
    | none => none

theorem deltaCombined_congr {records records2 : List UsageRecord} {k : String}
    (h : deltaRecs records = deltaRecs records2) :
    ∀ x, deltaCombined records k x = deltaCombined records2 k x := by
  intro x
  cases x <;> simp [deltaCombined, matchingDelta, h]

theorem deltaFold_get (records : List UsageRecord) :
    ∀ b k, mapGet (records.foldl deltaStep b) k = deltaCombined records k (mapGet b k) := by
  induction records with
  | nil =>
    intro b k
    cases hb : mapGet b k <;> simp [deltaCombined, matchingDelta, deltaRecs, sumTokensFrom, hb]
  | cons r rs ih =>
    intro b k
    rw [List.foldl_cons]
    by_cases hm : r.mode = some Mode.cumulative
    · have hd : deltaStep b r = b := by simp [deltaStep, hm]
      rw [hd, ih]
      exact (deltaCombined_congr (by simp [deltaRecs, List.filter_cons, hm]) _).symm
    · have hd : deltaStep b r = mapSet b (recordKey r) (deltaUpdated b r) := by
        simp [deltaStep, hm]
      rw [hd, ih]
      by_cases hk : recordKey r = k
      · subst hk
        rw [mapGet_mapSet_self]
        have hmatch : matchingDelta (r :: rs) (recordKey r) =
            r :: matchingDelta rs (recordKey r) := by
          simp [matchingDelta, deltaRecs, List.filter_cons, hm]
        cases hb : mapGet b (recordKey r) with
        | some e =>
          have hu : deltaUpdated b r = { e with tokens := addTokens e.tokens r.tokens } := by
            simp [deltaUpdated, hb]
          rw [hu]
          simp only [deltaCombined, hmatch]
          rfl
        | none =>
          have hu : deltaUpdated b r =
              { day := r.day, model := r.model, tokens := addTokens emptyTotals r.tokens } := by
            simp [deltaUpdated, hb]
          rw [hu]
          have hfind : (deltaRecs (r :: rs)).find?
              (fun x => decide (recordKey x = recordKey r)) = some r := by
            have : deltaRecs (r :: rs) = r :: deltaRecs rs := by
              simp [deltaRecs, List.filter_cons, hm]
            rw [this]
            simp [List.find?]
          simp only [deltaCombined, hfind, hmatch]
          rfl
      · rw [mapGet_mapSet_ne b (deltaUpdated b r) hk]
        have hmatch : matchingDelta (r :: rs) k = matchingDelta rs k := by
          simp [matchingDelta, deltaRecs, List.filter_cons, hm, hk]
        have hfind : (deltaRecs (r :: rs)).find? (fun x => decide (recordKey x = k)) =
            (deltaRecs rs).find? (fun x => decide (recordKey x = k)) := by
          have : deltaRecs (r :: rs) = r :: deltaRecs rs := by
            simp [deltaRecs, List.filter_cons, hm]
          rw [this]
          simp [List.find?, hk]
        cases hb : mapGet b k <;> simp [deltaCombined, hmatch, hfind]

/-- The cumulative records of a batch. -/
def cumRecs (records : List UsageRecord) : List UsageRecord :=
  records.filter (fun r => decide (r.mode = some Mode.cumulative))

/-- The cumulative records in group `ck` (keyed `day::model::source`). -/
def matchingCum (records : List UsageRecord) (ck : String) : List UsageRecord :=
  (cumRecs records).filter (fun r => decide (cumGroupKey r = ck))

/-- Fold the `Math.max` updates of a record list onto a starting value. -/
def maxTokensFrom (t : RequiredTotals) (rs : List UsageRecord) : RequiredTotals :=
  rs.foldl (fun u r => maxTokens u r.tokens) t

/-- The per-source group entry built by the cumulative branch: day and
model of the group's first record, per-axis maxima (from zero) over the
group's records. -/
def cumEntry (records : List UsageRecord) (ck : String) : AggregatedUsage :=
  match (cumRecs records).find? (fun r => decide (cumGroupKey r = ck)) with
  | some r0 =>
    { day := r0.day, model := r0.model,
      tokens := maxTokensFrom emptyTotals (matchingCum records ck) }
  | none => { day := "", model := "", tokens := emptyTotals }

/-- First occurrences of a key list, in order (the insertion order of a
JavaScript `Map` keyed by those strings). -/
def firstOccs : List String → List String
  | [] => []
  | k :: ks => k :: (firstOccs ks).filter (fun k2 => decide (¬ k2 = k))

/-- The group keys of the cumulativeBySource map, in insertion order. -/
def groupKeys (records : List UsageRecord) : List String :=
  firstOccs ((cumRecs records).map cumGroupKey)

theorem mem_firstOccs (k : String) : ∀ l : List String, k ∈ firstOccs l ↔ k ∈ l := by
  intro l
  induction l with
  | nil => simp [firstOccs]
  | cons k2 ks ih =>
    simp only [firstOccs, List.mem_cons, List.mem_filter]
    by_cases hk : k = k2
    · subst hk; simp
    · simp [hk, ih]

theorem nodup_firstOccs : ∀ l : List String, (firstOccs l).Nodup := by
  intro l
  induction l with
  | nil => simp [firstOccs]
  | cons k ks ih =>
    simp only [firstOccs, List.nodup_cons]
    constructor
    · intro hmem
      exact (by simpa using (List.mem_filter.mp hmem).2 : ¬ k = k) rfl
    · exact List.Nodup.filter _ ih

theorem firstOccs_append_single (k : String) :
    ∀ l : List String, firstOccs (l ++ [k]) =
      if k ∈ l then firstOccs l else firstOccs l ++ [k] := by
  intro l
  induction l with
  | nil => simp [firstOccs]
  | cons x xs ih =>
    have hcons : firstOccs (x :: (xs ++ [k])) =
        x :: (firstOccs (xs ++ [k])).filter (fun k2 => decide (¬ k2 = x)) := rfl
    have hcons2 : firstOccs (x :: xs) =
        x :: (firstOccs xs).filter (fun k2 => decide (¬ k2 = x)) := rfl
    show firstOccs (x :: (xs ++ [k])) = _
    rw [hcons, ih]
    by_cases hk : k ∈ xs
    · rw [if_pos hk, if_pos (List.mem_cons_of_mem x hk), hcons2]
    · rw [if_neg hk]
      by_cases hkx : k = x
      · subst hkx
        rw [if_pos (List.mem_cons_self k xs), hcons2]
        rw [List.filter_append]
        have he : List.filter (fun k2 => decide (¬ k2 = k)) [k] = [] := by simp
        rw [he, List.append_nil]
      · rw [if_neg (by simp [hkx, hk]), hcons2]
        rw [List.filter_append]
        have he : List.filter (fun k2 => decide (¬ k2 = x)) [k] = [k] := by simp [hkx]
        rw [he]
        rfl

theorem mapGet_keyedMap (f : String → AggregatedUsage) (k : String) :
    ∀ ks : List String,
      mapGet (ks.map (fun k2 => (k2, f k2))) k = if k ∈ ks then some (f k) else none := by
  intro ks
  induction ks with
  | nil => simp [mapGet]
  | cons k2 ks ih =>
    simp only [List.map_cons, mapGet]
    by_cases hk : k2 = k
    · subst hk
      simp
    · rw [if_neg hk, ih]
      by_cases hmem : k ∈ ks
      · rw [if_pos hmem, if_pos (List.mem_cons_of_mem k2 hmem)]
      · rw [if_neg hmem, if_neg (by
          simp only [List.mem_cons, not_or]
          exact ⟨fun h => hk h.symm, hmem⟩)]

theorem mapSet_keyedMap_mem (f : String → AggregatedUsage) (k : String) (v : AggregatedUsage) :
    ∀ ks : List String, ks.Nodup → k ∈ ks →
      mapSet (ks.map (fun k2 => (k2, f k2))) k v =
        ks.map (fun k2 => (k2, if k2 = k then v else f k2)) := by
  intro ks
  induction ks with
  | nil => intro _ hk; simp at hk
  | cons k2 ks ih =>
    intro hnd hk
    simp only [List.map_cons, mapSet]
    by_cases hk2 : k2 = k
    · subst hk2
      rw [if_pos rfl, if_pos rfl]
      have hnotmem : k2 ∉ ks := (List.nodup_cons.mp hnd).1
      have : ks.map (fun k3 => (k3, if k3 = k2 then v else f k3)) =
          ks.map (fun k3 => (k3, f k3)) := by
        apply List.map_congr_left
        intro x hx
        have : x ≠ k2 := fun hc => hnotmem (hc ▸ hx)
        simp [this]
      rw [this]
    · rw [if_neg hk2, if_neg hk2]
      have hkmem : k ∈ ks := by
        rcases List.mem_cons.mp hk with h | h
        · exact absurd h.symm hk2
        · exact h
      rw [ih (List.nodup_cons.mp hnd).2 hkmem]

theorem mapSet_keyedMap_not_mem (f : String → AggregatedUsage) (k : String)
    (v : AggregatedUsage) :
    ∀ ks : List String, k ∉ ks →
      mapSet (ks.map (fun k2 => (k2, f k2))) k v =
        ks.map (fun k2 => (k2, f k2)) ++ [(k, v)] := by
  intro ks
  induction ks with
  | nil => intro _; rfl
  | cons k2 ks ih =>
    intro hk
    simp only [List.map_cons, mapSet]
    have hk2 : k2 ≠ k := fun hc => hk (hc ▸ List.mem_cons_self k2 ks)
    rw [if_neg hk2, ih (fun hc => hk (List.mem_cons_of_mem k2 hc))]
    rfl

theorem cumRecs_append_delta (rs : List UsageRecord) (r : UsageRecord)
    (hm : ¬ r.mode = some Mode.cumulative) : cumRecs (rs ++ [r]) = cumRecs rs := by
  simp [cumRecs, List.filter_append, hm]

theorem cumRecs_append_cum (rs : List UsageRecord) (r : UsageRecord)
    (hm : r.mode = some Mode.cumulative) : cumRecs (rs ++ [r]) = cumRecs rs ++ [r] := by
  simp [cumRecs, List.filter_append, hm]

theorem cumEntry_congr {records records2 : List UsageRecord}
    (h : cumRecs records = cumRecs records2) (ck : String) :
    cumEntry records ck = cumEntry records2 ck := by
  simp [cumEntry, matchingCum, h]

theorem cumEntry_append_ne (rs : List UsageRecord) (r : UsageRecord) (ck : String)
    (hm : r.mode = some Mode.cumulative) (hne : ¬ cumGroupKey r = ck) :
    cumEntry (rs ++ [r]) ck = cumEntry rs ck := by
  have h1 := cumRecs_append_cum rs r hm
  have hf : List.find? (fun x => decide (cumGroupKey x = ck)) [r] = none := by
    simp [List.find?, hne]
  have hf2 : List.filter (fun x => decide (cumGroupKey x = ck)) [r] = [] := by
    simp [hne]
  unfold cumEntry matchingCum
  rw [h1, List.find?_append, hf, List.filter_append, hf2, List.append_nil]
  cases (cumRecs rs).find? (fun x => decide (cumGroupKey x = ck)) <;> rfl

theorem maxTokensFrom_append_single (t : RequiredTotals) (l : List UsageRecord)
    (r : UsageRecord) :
    maxTokensFrom t (l ++ [r]) = maxTokens (maxTokensFrom t l) r.tokens := by
  simp [maxTokensFrom, List.foldl_append]

theorem cumEntry_append_eq_mem (rs : List UsageRecord) (r : UsageRecord)
    (hm : r.mode = some Mode.cumulative)
    (hmem : cumGroupKey r ∈ (cumRecs rs).map cumGroupKey) :
    cumEntry (rs ++ [r]) (cumGroupKey r) =
      { cumEntry rs (cumGroupKey r) with
          tokens := maxTokens (cumEntry rs (cumGroupKey r)).tokens r.tokens } := by
  have h1 := cumRecs_append_cum rs r hm
  obtain ⟨r0, hr0⟩ : ∃ r0,
      (cumRecs rs).find? (fun x => decide (cumGroupKey x = cumGroupKey r)) = some r0 := by
    rw [← Option.isSome_iff_exists, List.find?_isSome]
    obtain ⟨x, hx, hxe⟩ := List.mem_map.mp hmem
    exact ⟨x, hx, by simp [hxe]⟩
  have hfr : List.filter (fun x => decide (cumGroupKey x = cumGroupKey r)) [r] = [r] := by
    simp
  unfold cumEntry matchingCum
  rw [h1, List.find?_append, hr0, List.filter_append, hfr]
  rw [show ((some r0).or (List.find? (fun x => decide (cumGroupKey x = cumGroupKey r)) [r]))
    = some r0 from rfl]
  rw [maxTokensFrom_append_single]

theorem cumEntry_append_eq_not_mem (rs : List UsageRecord) (r : UsageRecord)
    (hm : r.mode = some Mode.cumulative)
    (hnmem : cumGroupKey r ∉ (cumRecs rs).map cumGroupKey) :
    cumEntry (rs ++ [r]) (cumGroupKey r) =
      { day := r.day, model := r.model, tokens := maxTokens emptyTotals r.tokens } := by
  have h1 := cumRecs_append_cum rs r hm
  have hfind : (cumRecs rs).find? (fun x => decide (cumGroupKey x = cumGroupKey r)) = none := by
    rw [List.find?_eq_none]
    intro x hx
    simp only [decide_eq_true_eq]
    intro hc
    exact hnmem (hc ▸ List.mem_map_of_mem cumGroupKey hx)
  have hfilt : (cumRecs rs).filter (fun x => decide (cumGroupKey x = cumGroupKey r)) = [] := by
    rw [List.filter_eq_nil_iff]
    intro x hx
    simp only [decide_eq_true_eq]
    intro hc
    exact hnmem (hc ▸ List.mem_map_of_mem cumGroupKey hx)
  unfold cumEntry matchingCum
  rw [h1, List.find?_append, hfind, List.filter_append, hfilt]
  simp [List.find?, maxTokensFrom]

theorem cumFold_structure (records : List UsageRecord) :
    records.foldl cumStep [] =
      (groupKeys records).map (fun ck => (ck, cumEntry records ck)) := by
  induction records using List.reverseRecOn with
  | nil => rfl
  | append_singleton rs r ih =>
    rw [List.foldl_append, List.foldl_cons, List.foldl_nil, ih]
    by_cases hm : r.mode = some Mode.cumulative
    · have hstep : cumStep ((groupKeys rs).map fun ck => (ck, cumEntry rs ck)) r =
          mapSet ((groupKeys rs).map fun ck => (ck, cumEntry rs ck)) (cumGroupKey r)
            (cumUpdated ((groupKeys rs).map fun ck => (ck, cumEntry rs ck)) r) := by
        simp [cumStep, hm]
      rw [hstep]
      by_cases hck : cumGroupKey r ∈ (cumRecs rs).map cumGroupKey
      · have hckK : cumGroupKey r ∈ groupKeys rs := (mem_firstOccs _ _).mpr hck
        have hget : mapGet ((groupKeys rs).map fun ck => (ck, cumEntry rs ck))
            (cumGroupKey r) = some (cumEntry rs (cumGroupKey r)) := by
          rw [mapGet_keyedMap, if_pos hckK]
        have hupd : cumUpdated ((groupKeys rs).map fun ck => (ck, cumEntry rs ck)) r =
            { cumEntry rs (cumGroupKey r) with
                tokens := maxTokens (cumEntry rs (cumGroupKey r)).tokens r.tokens } := by
          simp [cumUpdated, hget]
        have hnd : (groupKeys rs).Nodup := nodup_firstOccs _
        rw [hupd, mapSet_keyedMap_mem _ _ _ (groupKeys rs) hnd hckK]
        have hg : groupKeys (rs ++ [r]) = groupKeys rs := by
          rw [groupKeys, cumRecs_append_cum rs r hm, List.map_append]
          rw [show List.map cumGroupKey [r] = [cumGroupKey r] from rfl]
          rw [firstOccs_append_single, if_pos hck]
          rfl
        rw [hg]
        apply List.map_congr_left
        intro ck hckmem
        by_cases hcke : ck = cumGroupKey r
        · subst hcke
          rw [if_pos rfl, cumEntry_append_eq_mem rs r hm hck]
        · rw [if_neg hcke, cumEntry_append_ne rs r ck hm (fun hc => hcke hc.symm)]
      · have hckK : cumGroupKey r ∉ groupKeys rs := fun h => hck ((mem_firstOccs _ _).mp h)
        have hget : mapGet ((groupKeys rs).map fun ck => (ck, cumEntry rs ck))
            (cumGroupKey r) = none := by
          rw [mapGet_keyedMap, if_neg hckK]
        have hupd : cumUpdated ((groupKeys rs).map fun ck => (ck, cumEntry rs ck)) r =
            { day := r.day, model := r.model, tokens := maxTokens emptyTotals r.tokens } := by
          simp [cumUpdated, hget]
        rw [hupd, mapSet_keyedMap_not_mem _ _ _ (groupKeys rs) hckK]
        have hg : groupKeys (rs ++ [r]) = groupKeys rs ++ [cumGroupKey r] := by
          rw [groupKeys, cumRecs_append_cum rs r hm, List.map_append]
          rw [show List.map cumGroupKey [r] = [cumGroupKey r] from rfl]
          rw [firstOccs_append_single, if_neg hck]
          rfl
        rw [hg, List.map_append]
        congr 1
        · apply List.map_congr_left
          intro ck hckmem
          have hne : ¬ cumGroupKey r = ck := fun hc => hckK (hc ▸ hckmem)
          rw [cumEntry_append_ne rs r ck hm hne]
        · rw [show List.map (fun ck => (ck, cumEntry (rs ++ [r]) ck)) [cumGroupKey r] =
            [(cumGroupKey r, cumEntry (rs ++ [r]) (cumGroupKey r))] from rfl]
          rw [cumEntry_append_eq_not_mem rs r hm hck]
    · have hstep : cumStep ((groupKeys rs).map fun ck => (ck, cumEntry rs ck)) r =
          (groupKeys rs).map fun ck => (ck, cumEntry rs ck) := by
        simp [cumStep, hm]
      rw [hstep]
      have hc := cumRecs_append_delta rs r hm
      have hg : groupKeys (rs ++ [r]) = groupKeys rs := by
        rw [groupKeys, hc]
        rfl
      rw [hg]
      apply List.map_congr_left
      intro ck _
      rw [cumEntry_congr hc.symm]

/-- Fold `addTotals`-style additions of entry tokens onto a start value
(the second loop of `aggregateUsage` adds `RequiredTotals`, so every axis
is present and `addToken` is plain addition). -/
def addReqFrom (t : RequiredTotals) (es : List AggregatedUsage) : RequiredTotals :=
  es.foldl (fun u e => addReq u e.tokens) t

/-- The cumulative per-source entries that fold into byKey key `k`. -/
def entriesFor (pairs : List (String × AggregatedUsage)) (k : String) :
    List AggregatedUsage :=
  (pairs.map Prod.snd).filter (fun e => decide (entryKey e = k))

/-- The value at key `k` of the byKey map after the second loop folds the
per-source entries `pairs` on top of an initial value. -/
def cumCombined (pairs : List (String × AggregatedUsage)) (k : String) :
    Option AggregatedUsage → Option AggregatedUsage
  | some e => some { e with tokens := addReqFrom e.tokens (entriesFor pairs k) }
  | none =>
    match (pairs.map Prod.snd).find? (fun e => decide (entryKey e = k)) with
    | some e0 =>
      some
        { day := e0.day, model := e0.model,
          tokens := addReqFrom emptyTotals (entriesFor pairs k) }
    | none => none

theorem cumFold_get (pairs : List (String × AggregatedUsage)) :
    ∀ b k, mapGet (pairs.foldl cumFoldStep b) k = cumCombined pairs k (mapGet b k) := by
  induction pairs with
  | nil =>
    intro b k
    cases hb : mapGet b k <;> simp [cumCombined, entriesFor, addReqFrom, hb]
  | cons p ps ih =>
    intro b k
    rw [List.foldl_cons]
    have hstep : cumFoldStep b p =
        mapSet b (entryKey p.2)
          ({ (mapGet b (entryKey p.2)).getD
              { day := p.2.day, model := p.2.model, tokens := emptyTotals } with
            tokens := addReq ((mapGet b (entryKey p.2)).getD
              { day := p.2.day, model := p.2.model, tokens := emptyTotals }).tokens
              p.2.tokens }) := rfl
    rw [hstep, ih]
    by_cases hk : entryKey p.2 = k
    · subst hk
      rw [mapGet_mapSet_self]
      have hents : entriesFor (p :: ps) (entryKey p.2) =
          p.2 :: entriesFor ps (entryKey p.2) := by
        simp [entriesFor, List.filter_cons]
      cases hb : mapGet b (entryKey p.2) with
      | some e =>
        simp only [Option.getD_some, cumCombined, hents]
        rfl
      | none =>
        have hfind : ((p :: ps).map Prod.snd).find?
            (fun e => decide (entryKey e = entryKey p.2)) = some p.2 := by
          simp [List.find?]
        simp only [Option.getD_none, cumCombined, hfind, hents]
        rfl
    · rw [mapGet_mapSet_ne b _ hk]
      have hents : entriesFor (p :: ps) k = entriesFor ps k := by
        simp [entriesFor, List.filter_cons, hk]
      have hfind : ((p :: ps).map Prod.snd).find? (fun e => decide (entryKey e = k)) =
          (ps.map Prod.snd).find? (fun e => decide (entryKey e = k)) := by
        simp [List.find?, hk]
      cases hb : mapGet b k with
      | none =>
        simp only [cumCombined, hfind, hents]
      | some e =>
        simp only [cumCombined, hents]

/-- Every binding of the map stores an entry whose `day::model` key is its
binding key. -/
def keyConsistent (m : List (String × AggregatedUsage)) : Prop :=
  ∀ p ∈ m, entryKey p.2 = p.1

theorem mapGet_keyConsistent {m : List (String × AggregatedUsage)}
    (hkc : keyConsistent m) {k : String} {v : AggregatedUsage}
    (h : mapGet m k = some v) : entryKey v = k := by
  have hmem := mapGet_mem h
  exact hkc (k, v) hmem

theorem keyConsistent_mapSet {k : String} {v : AggregatedUsage}
    (hv : entryKey v = k) :
    ∀ m : List (String × AggregatedUsage), keyConsistent m → keyConsistent (mapSet m k v) := by
  intro m
  induction m with
  | nil =>
    intro _ p hp
    simp only [mapSet, List.mem_singleton] at hp
    rw [hp]
    exact hv
  | cons q rest ih =>
    intro hkc p hp
    obtain ⟨k2, v2⟩ := q
    by_cases hk2 : k2 = k
    · subst hk2
      simp only [mapSet, if_pos rfl] at hp
      rcases List.mem_cons.mp hp with h | h
      · rw [h]; exact hv
      · exact hkc _ (List.mem_cons_of_mem _ h)
    · simp only [mapSet, if_neg hk2] at hp
      rcases List.mem_cons.mp hp with h | h
      · rw [h]; exact hkc _ (List.mem_cons_self _ _)
      · exact ih (fun q hq => hkc q (List.mem_cons_of_mem _ hq)) p h

theorem mapSet_keys (m : List (String × AggregatedUsage)) (k : String)
    (v : AggregatedUsage) :
    (mapSet m k v).map Prod.fst =
      if k ∈ m.map Prod.fst then m.map Prod.fst else m.map Prod.fst ++ [k] := by
  induction m with
  | nil => simp [mapSet]
  | cons q rest ih =>
    obtain ⟨k2, v2⟩ := q
    by_cases hk2 : k2 = k
    · subst hk2
      simp [mapSet]
    · simp only [mapSet, if_neg hk2, List.map_cons, ih]
      by_cases hmem : k ∈ rest.map Prod.fst
      · rw [if_pos hmem, if_pos (by simp [hmem])]
      · rw [if_neg hmem, if_neg (by
          simp only [List.mem_cons, not_or]
          exact ⟨fun h => hk2 h.symm, hmem⟩)]
        rfl

theorem keysNodup_mapSet {m : List (String × AggregatedUsage)}
    (hnd : (m.map Prod.fst).Nodup) (k : String) (v : AggregatedUsage) :
    ((mapSet m k v).map Prod.fst).Nodup := by
  rw [mapSet_keys]
  by_cases hmem : k ∈ m.map Prod.fst
  · rw [if_pos hmem]; exact hnd
  · rw [if_neg hmem]
    have := List.nodup_append.mpr ⟨hnd, List.nodup_singleton k, ?_⟩
    · exact this
    · intro x hx
      simp only [List.mem_singleton]
      intro hc
      exact hmem (hc ▸ hx)

theorem deltaFold_invariant (records : List UsageRecord) :
    ∀ b, keyConsistent b → ((b.map Prod.fst).Nodup) →
      keyConsistent (records.foldl deltaStep b) ∧
        (((records.foldl deltaStep b).map Prod.fst).Nodup) := by
  induction records with
  | nil => intro b hkc hnd; exact ⟨hkc, hnd⟩
  | cons r rs ih =>
    intro b hkc hnd
    rw [List.foldl_cons]
    by_cases hm : r.mode = some Mode.cumulative
    · have hd : deltaStep b r = b := by simp [deltaStep, hm]
      rw [hd]
      exact ih b hkc hnd
    · have hd : deltaStep b r = mapSet b (recordKey r) (deltaUpdated b r) := by
        simp [deltaStep, hm]
      rw [hd]
      have hent : entryKey (deltaUpdated b r) = recordKey r := by
        unfold deltaUpdated
        cases hb : mapGet b (recordKey r) with
        | some e =>
          have := mapGet_keyConsistent hkc hb
          simpa [entryKey, hb] using this
        | none => simp [entryKey, hb, recordKey]
      exact ih _ (keyConsistent_mapSet hent b hkc) (keysNodup_mapSet hnd _ _)

theorem cumFold_invariant (pairs : List (String × AggregatedUsage)) :
    ∀ b, keyConsistent b → ((b.map Prod.fst).Nodup) →
      keyConsistent (pairs.foldl cumFoldStep b) ∧
        (((pairs.foldl cumFoldStep b).map Prod.fst).Nodup) := by
  induction pairs with
  | nil => intro b hkc hnd; exact ⟨hkc, hnd⟩
  | cons p ps ih =>
    intro b hkc hnd
    rw [List.foldl_cons]
    have hstep : cumFoldStep b p =
        mapSet b (entryKey p.2)
          ({ (mapGet b (entryKey p.2)).getD
              { day := p.2.day, model := p.2.model, tokens := emptyTotals } with
            tokens := addReq ((mapGet b (entryKey p.2)).getD
              { day := p.2.day, model := p.2.model, tokens := emptyTotals }).tokens
              p.2.tokens }) := rfl
    rw [hstep]
    have hent : entryKey
        ({ (mapGet b (entryKey p.2)).getD
            { day := p.2.day, model := p.2.model, tokens := emptyTotals } with
          tokens := addReq ((mapGet b (entryKey p.2)).getD
            { day := p.2.day, model := p.2.model, tokens := emptyTotals }).tokens
            p.2.tokens }) = entryKey p.2 := by
      cases hb : mapGet b (entryKey p.2) with
      | some e =>
        have := mapGet_keyConsistent hkc hb
        simpa [entryKey, hb] using this
      | none => simp [entryKey, hb]
    exact ih _ (keyConsistent_mapSet hent b hkc) (keysNodup_mapSet hnd _ _)

theorem mem_values_iff_get {m : List (String × AggregatedUsage)}
    (hkc : keyConsistent m) (hnd : (m.map Prod.fst).Nodup) (e : AggregatedUsage) :
    e ∈ m.map Prod.snd ↔ mapGet m (entryKey e) = some e := by
  constructor
  · intro hmem
    obtain ⟨p, hp, hpe⟩ := List.mem_map.mp hmem
    have hk := hkc p hp
    rw [← hpe, hk]
    exact mapGet_of_mem_nodup hnd hp
  · intro hget
    have := mapGet_mem hget
    exact List.mem_map.mpr ⟨(entryKey e, e), this, rfl⟩

theorem charsLt_iff_lex : ∀ a b : List Char, charsLt a b = true ↔ List.Lex (· < ·) a b := by
  intro a
  induction a with
  | nil =>
    intro b
    cases b with
    | nil =>
      simp only [charsLt, Bool.false_eq_true, false_iff]
      exact List.Lex.not_nil_right _ _
    | cons y ys =>
      simp only [charsLt, true_iff]
      exact List.Lex.nil
  | cons x xs ih =>
    intro b
    cases b with
    | nil =>
      simp only [charsLt, Bool.false_eq_true, false_iff]
      exact List.Lex.not_nil_right _ _
    | cons y ys =>
      by_cases hxy : x = y
      · subst hxy
        have hstep : charsLt (x :: xs) (x :: ys) = charsLt xs ys := by
          simp [charsLt]
        rw [hstep, ih ys]
        exact List.Lex.cons_iff.symm
      · simp only [charsLt, if_neg hxy, decide_eq_true_eq]
        constructor
        · exact List.Lex.rel
        · intro h
          cases h with
          | cons h => exact absurd rfl hxy
          | rel h => exact h

theorem strLt_iff_lt (a b : String) : strLt a b = true ↔ a < b := by
  rw [String.lt_iff_toList_lt]
  exact charsLt_iff_lex a.data b.data

theorem strLe_iff_le (a b : String) : strLe a b = true ↔ a ≤ b := by
  unfold strLe
  constructor
  · intro h
    simp only [Bool.not_eq_true'] at h
    by_contra hc
    rw [(strLt_iff_lt b a).mpr (not_le.mp hc)] at h
    exact absurd h (by simp)
  · intro h
    simp only [Bool.not_eq_true']
    cases hlt : strLt b a with
    | false => rfl
    | true => exact absurd ((strLt_iff_lt b a).mp hlt) (not_lt.mpr h)

theorem aggLE_iff (a b : AggregatedUsage) :
    aggLE a b ↔ (a.day < b.day ∨ (a.day = b.day ∧ a.model ≤ b.model)) := by
  unfold aggLE lexLEb
  by_cases hd : a.day = b.day
  · rw [if_pos hd, strLe_iff_le]
    constructor
    · intro h; exact Or.inr ⟨hd, h⟩
    · intro h
      rcases h with h | ⟨_, h⟩
      · rw [hd] at h; exact absurd h (lt_irrefl _)
      · exact h
  · rw [if_neg hd, strLt_iff_lt]
    constructor
    · exact Or.inl
    · intro h
      rcases h with h | ⟨he, _⟩
      · exact h
      · exact absurd he hd

theorem finalizeEntry_parts (e : AggregatedUsage) :
    (finalizeEntry e).day = e.day ∧ (finalizeEntry e).model = e.model ∧
    (finalizeEntry e).tokens.input = e.tokens.input ∧
    (finalizeEntry e).tokens.output = e.tokens.output ∧
    (finalizeEntry e).tokens.cache = e.tokens.cache ∧
    (finalizeEntry e).tokens.thinking = e.tokens.thinking := by
  unfold finalizeEntry
  dsimp only
  split_ifs <;> exact ⟨rfl, rfl, rfl, rfl, rfl, rfl⟩

theorem entryKey_finalizeEntry (e : AggregatedUsage) :
    entryKey (finalizeEntry e) = entryKey e := by
  unfold entryKey
  rw [(finalizeEntry_parts e).1, (finalizeEntry_parts e).2.1]

/-- The spec's amended total formula over the summed axes: cache-subset
input total plus output total when positive, otherwise the summed raw
total axis. -/
def amendedTotal (s : RequiredTotals) : Int :=
  let outputTotal := s.output + s.thinking
  let inputTotal :=
    if s.cache > s.input then s.input + s.cache
    else if s.input > 0 then s.input
    else s.cache
  if inputTotal + outputTotal > 0 then inputTotal + outputTotal else s.total

theorem finalizeEntry_total_nonneg (e : AggregatedUsage)
    (h1 : 0 ≤ e.tokens.input) (h2 : 0 ≤ e.tokens.output)
    (h3 : 0 ≤ e.tokens.cache) (h4 : 0 ≤ e.tokens.thinking) :
    (finalizeEntry e).tokens.total = amendedTotal e.tokens := by
  unfold finalizeEntry amendedTotal
  dsimp only
  split_ifs <;> first | rfl | omega

/-- The pair of maps built by the first loop of `aggregateUsage`. -/
def aggMaps (records : List UsageRecord) :
    List (String × AggregatedUsage) × List (String × AggregatedUsage) :=
  records.foldl aggStep ([], [])

/-- The byKey map after the second loop of `aggregateUsage`. -/
def byKeyFinal (records : List UsageRecord) : List (String × AggregatedUsage) :=
  (aggMaps records).2.foldl cumFoldStep (aggMaps records).1

theorem aggregateUsage_eq (records : List UsageRecord) :
    aggregateUsage records =
      List.insertionSort aggLE (((byKeyFinal records).map (·.2)).map finalizeEntry) := rfl

theorem byKeyFinal_invariant (records : List UsageRecord) :
    keyConsistent (byKeyFinal records) ∧ ((byKeyFinal records).map Prod.fst).Nodup := by
  unfold byKeyFinal aggMaps
  rw [aggFold_split]
  have hD := deltaFold_invariant records []
    (by intro p hp; simp at hp) (by simp)
  exact cumFold_invariant _ _ hD.1 hD.2

theorem byKeyFinal_get (records : List UsageRecord) (k : String) :
    mapGet (byKeyFinal records) k =
      cumCombined ((groupKeys records).map fun ck => (ck, cumEntry records ck)) k
        (deltaCombined records k none) := by
  unfold byKeyFinal aggMaps
  rw [aggFold_split]
  show mapGet (List.foldl cumFoldStep (List.foldl deltaStep [] records)
    (List.foldl cumStep [] records)) k = _
  rw [cumFold_get, cumFold_structure, deltaFold_get]
  rfl

theorem aggregateUsage_mem (records : List UsageRecord) (e : AggregatedUsage) :
    e ∈ aggregateUsage records ↔
      ∃ v, mapGet (byKeyFinal records) (entryKey v) = some v ∧ e = finalizeEntry v := by
  have hperm := List.perm_insertionSort aggLE
    (((byKeyFinal records).map Prod.snd).map finalizeEntry)
  constructor
  · intro h
    rw [aggregateUsage_eq] at h
    have h2 := hperm.mem_iff.mp h
    obtain ⟨v, hv, he⟩ := List.mem_map.mp h2
    exact ⟨v, (mem_values_iff_get (byKeyFinal_invariant records).1
      (byKeyFinal_invariant records).2 v).mp hv, he.symm⟩
  · rintro ⟨v, hv, rfl⟩
    rw [aggregateUsage_eq]
    refine hperm.mem_iff.mpr ?_
    exact List.mem_map.mpr ⟨v, (mem_values_iff_get (byKeyFinal_invariant records).1
      (byKeyFinal_invariant records).2 v).mpr hv, rfl⟩

theorem map_entryKey_values (m : List (String × AggregatedUsage))
    (hkc : keyConsistent m) :
    (m.map Prod.snd).map entryKey = m.map Prod.fst := by
  rw [List.map_map]
  exact List.map_congr_left (fun p hp => hkc p hp)

theorem aggregateUsage_keys_nodup (records : List UsageRecord) :
    ((aggregateUsage records).map entryKey).Nodup := by
  have hperm : ((aggregateUsage records).map entryKey).Perm
      ((((byKeyFinal records).map Prod.snd).map finalizeEntry).map entryKey) := by
    rw [aggregateUsage_eq]
    exact (List.perm_insertionSort _ _).map entryKey
  rw [hperm.nodup_iff]
  rw [List.map_map]
  have hcong : ((byKeyFinal records).map Prod.snd).map (entryKey ∘ finalizeEntry) =
      ((byKeyFinal records).map Prod.snd).map entryKey := by
    exact List.map_congr_left (fun v _ => entryKey_finalizeEntry v)
  rw [show (((byKeyFinal records).map Prod.snd).map (entryKey ∘ finalizeEntry)) =
    ((byKeyFinal records).map Prod.snd).map (entryKey ∘ finalizeEntry) from rfl]
  rw [hcong, map_entryKey_values _ (byKeyFinal_invariant records).1]
  exact (byKeyFinal_invariant records).2

/-! ### buildSyncPayload (src/lib/payload.ts lines 17-49) -/

/-- `SyncPayloadEntry` from src/lib/payload.ts. -/
structure SyncPayloadEntry where
  day : String
  model : String
  tokens : RequiredTotals
deriving Repr, DecidableEq

/-- `SyncPayload` from src/lib/payload.ts. -/
structure SyncPayload where
  version : Nat
  generatedAt : String
  deviceId : Option String := none
  deviceName : Option String := none
  totals : List SyncPayloadEntry
deriving Repr, DecidableEq

/-- The payload sort comparator (same two-level comparison as the
aggregate sort). -/
def entryLE (a b : SyncPayloadEntry) : Prop :=
  lexLEb a.day a.model b.day b.model = true

instance : DecidableRel entryLE := fun a b => by
  unfold entryLE; infer_instance

instance : IsTotal SyncPayloadEntry entryLE :=
  ⟨fun a b => lexLEb_total a.day a.model b.day b.model⟩

instance : IsTrans SyncPayloadEntry entryLE :=
  ⟨fun _ _ _ => lexLEb_trans⟩

/-- The `options.deviceId?.trim() || undefined` normalisation: trim, and
drop the value when it is absent or trims to the empty string. -/
def trimOrNone : Option String → Option String
  | some v => if v.trim = "" then none else some v.trim
  | none => none

/-- `buildSyncPayload` from src/lib/payload.ts: map each `day::model` ledger
key to a payload entry (splitting the key on `::`; a malformed key without
a second segment is modelled with an empty model string), sort by day then
model, and attach version and device metadata.  The `now` argument stands
for `new Date().toISOString()`. -/
def buildSyncPayload (dailyTotals : List (String × RequiredTotals))
    (generatedAt deviceId deviceName : Option String) (now : String) : SyncPayload :=
  let totals : List SyncPayloadEntry := dailyTotals.map (fun p =>
    { day := (p.1.splitOn "::").getD 0 ""
      model := (p.1.splitOn "::").getD 1 ""
      tokens := p.2 })
  { version := 1
    generatedAt := generatedAt.getD now
    deviceId := trimOrNone deviceId
    deviceName := trimOrNone deviceName
    totals := List.insertionSort entryLE totals }

theorem entryLE_iff (a b : SyncPayloadEntry) :
    entryLE a b ↔ (a.day < b.day ∨ (a.day = b.day ∧ a.model ≤ b.model)) := by
  unfold entryLE lexLEb
  by_cases hd : a.day = b.day
  · rw [if_pos hd, strLe_iff_le]
    constructor
    · intro h; exact Or.inr ⟨hd, h⟩
    · intro h
      rcases h with h | ⟨_, h⟩
      · rw [hd] at h; exact absurd h (lt_irrefl _)
      · exact h
  · rw [if_neg hd, strLt_iff_lt]
    constructor
    · exact Or.inl
    · intro h
      rcases h with h | ⟨he, _⟩
      · exact h
      · exact absurd he hd

/-- C7: the aggregate list returned by `aggregateUsage` and the `totals`
array built by `buildSyncPayload` are always sorted primarily by day
ascending and secondarily by model, lexicographically, for every input
and key order. -/
theorem aggregateUsage_buildSyncPayload_sorted :
    (∀ records : List UsageRecord,
      List.Pairwise (fun a b : AggregatedUsage =>
        a.day < b.day ∨ (a.day = b.day ∧ a.model ≤ b.model)) (aggregateUsage records)) ∧
    (∀ (dailyTotals : List (String × RequiredTotals))
      (generatedAt deviceId deviceName : Option String) (now : String),
      List.Pairwise (fun a b : SyncPayloadEntry =>
        a.day < b.day ∨ (a.day = b.day ∧ a.model ≤ b.model))
        (buildSyncPayload dailyTotals generatedAt deviceId deviceName now).totals) := by
  constructor
  · intro records
    have hs := List.sorted_insertionSort aggLE
      (((byKeyFinal records).map (·.2)).map finalizeEntry)
    rw [← aggregateUsage_eq] at hs
    exact hs.imp (fun h => (aggLE_iff _ _).mp h)
  · intro dailyTotals generatedAt deviceId deviceName now
    have hs := List.sorted_insertionSort entryLE
      (dailyTotals.map (fun p =>
        { day := (p.1.splitOn "::").getD 0 ""
          model := (p.1.splitOn "::").getD 1 ""
          tokens := p.2 : SyncPayloadEntry }))
    exact hs.imp (fun h => (entryLE_iff _ _).mp h)

/-- Modelled from the spec: the total formula exactly as claim C1 states
it — `inputTotal + outputTotal` when that sum is positive, otherwise the
plain sum of the four axes (with no condition on the summed total axis). -/
def claimedTotal (s : RequiredTotals) : Int :=
  let outputTotal := s.output + s.thinking
  let inputTotal :=
    if s.cache > s.input then s.input + s.cache
    else if s.input > 0 then s.input
    else s.cache
  if inputTotal + outputTotal > 0 then inputTotal + outputTotal
  else s.input + s.output + s.cache + s.thinking

/-- A delta record carrying only a `total` axis. -/
def totalOnlyRecord : UsageRecord :=
  { day := "2026-01-02", model := "m", tokens := { total := some 20 },
    source := "a", mode := some Mode.delta }

/-- C1 counterexample: for the delta batch `[totalOnlyRecord]` the axis
sums are all zero, so the claim's fallback makes the predicted total 0
(the plain sum of the four axes), but the code keeps the summed total
axis, 20. -/
theorem aggregateUsage_total_fallback_counterexample :
    aggregateUsage [totalOnlyRecord] =
      [{ day := "2026-01-02", model := "m",
         tokens := { input := 0, output := 0, cache := 0, thinking := 0, total := 20 } }] ∧
    claimedTotal { input := 0, output := 0, cache := 0, thinking := 0, total := 20 } = 0 ∧
    (20 : Int) ≠ 0 :=
  ⟨by decide, by decide, by decide⟩

/-- Sum, per axis, of the tokens of all records of the batch with grouping
key `k` (a missing axis contributes nothing). -/
def deltaOnlySum (records : List UsageRecord) (k : String) : RequiredTotals :=
  sumTokensFrom emptyTotals (records.filter (fun r => decide (recordKey r = k)))

theorem deltaRecs_eq_self {records : List UsageRecord}
    (hall : ∀ r ∈ records, ¬ r.mode = some Mode.cumulative) :
    deltaRecs records = records := by
  rw [deltaRecs, List.filter_eq_self]
  intro a ha
  simpa using hall a ha

theorem byKeyFinal_delta_only {records : List UsageRecord}
    (hall : ∀ r ∈ records, ¬ r.mode = some Mode.cumulative) :
    byKeyFinal records = records.foldl deltaStep [] := by
  unfold byKeyFinal aggMaps
  rw [aggFold_split]
  show List.foldl cumFoldStep (List.foldl deltaStep [] records)
    (List.foldl cumStep [] records) = _
  have hcum : cumRecs records = [] := by
    rw [cumRecs, List.filter_eq_nil_iff]
    intro r hr
    simpa using hall r hr
  have hg : groupKeys records = [] := by
    rw [groupKeys, hcum]
    rfl
  rw [cumFold_structure, hg]
  rfl

theorem addTok_nonneg {cur : Int} {v : Option Int} (hc : 0 ≤ cur)
    (hv : optNonneg v) : 0 ≤ addTok cur v := by
  cases v with
  | none => exact hc
  | some x => exact add_nonneg hc hv

theorem reqNonneg_emptyTotals : reqNonneg emptyTotals :=
  ⟨le_refl _, le_refl _, le_refl _, le_refl _, le_refl _⟩

theorem addTokens_nonneg {t : RequiredTotals} {d : TokenTotals}
    (ht : reqNonneg t) (hd : tokensNonneg d) : reqNonneg (addTokens t d) := by
  obtain ⟨t1, t2, t3, t4, t5⟩ := ht
  obtain ⟨d1, d2, d3, d4, d5⟩ := hd
  exact ⟨addTok_nonneg t1 d1, addTok_nonneg t2 d2, addTok_nonneg t3 d3,
    addTok_nonneg t4 d4, addTok_nonneg t5 d5⟩

theorem sumTokensFrom_nonneg (rs : List UsageRecord) :
    ∀ t : RequiredTotals, reqNonneg t → (∀ r ∈ rs, tokensNonneg r.tokens) →
      reqNonneg (sumTokensFrom t rs) := by
  induction rs with
  | nil => intro t ht _; exact ht
  | cons r rs ih =>
    intro t ht h
    show reqNonneg (sumTokensFrom (addTokens t r.tokens) rs)
    exact ih _ (addTokens_nonneg ht (h r (List.mem_cons_self r rs)))
      (fun x hx => h x (List.mem_cons_of_mem r hx))

/-- C1 amended: for every batch of delta-mode records with non-negative
token counts, `aggregateUsage` yields exactly one entry per `day::model`
key (no duplicate keys; every record's key is covered; every entry comes
from some record); each entry's input, output, cache and thinking axes are
the sums of those axes over the records with its key, and its total is
`inputTotal + outputTotal` when that sum is positive — where `inputTotal`
is `input + cache` when `cache > input`, otherwise `input` (or `cache`
alone when `input` is zero) and `outputTotal` is `output + thinking` — and
otherwise the summed `total` axis of the contributing records (the plain
four-axis fallback only fires when that summed total axis is zero, and
non-negative axes then force it to equal that value).  The claim's
concrete instance holds: two delta records for the same day and model with
(10, 5) and (3, 2) aggregate to input 13, output 7, total 20. -/
theorem aggregateUsage_delta_batches (records : List UsageRecord)
    (hmode : ∀ r ∈ records, r.mode = some Mode.delta)
    (hnn : ∀ r ∈ records, tokensNonneg r.tokens) :
    ((aggregateUsage records).map entryKey).Nodup ∧
    (∀ r ∈ records, ∃ e ∈ aggregateUsage records, entryKey e = recordKey r) ∧
    (∀ e ∈ aggregateUsage records, ∃ r ∈ records, recordKey r = entryKey e) ∧
    (∀ e ∈ aggregateUsage records,
      e.tokens.input = (deltaOnlySum records (entryKey e)).input ∧
      e.tokens.output = (deltaOnlySum records (entryKey e)).output ∧
      e.tokens.cache = (deltaOnlySum records (entryKey e)).cache ∧
      e.tokens.thinking = (deltaOnlySum records (entryKey e)).thinking ∧
      e.tokens.total = amendedTotal (deltaOnlySum records (entryKey e))) ∧
    aggregateUsage
      [{ day := "2026-01-02", model := "gpt-4",
         tokens := { input := some 10, output := some 5 },
         source := "a", mode := some Mode.delta },
       { day := "2026-01-02", model := "gpt-4",
         tokens := { input := some 3, output := some 2 },
         source := "b", mode := some Mode.delta }] =
      [{ day := "2026-01-02", model := "gpt-4",
         tokens := { input := 13, output := 7, cache := 0, thinking := 0, total := 20 } }] := by
  have hall : ∀ r ∈ records, ¬ r.mode = some Mode.cumulative := by
    intro r hr
    rw [hmode r hr]
    simp
  have hds : deltaRecs records = records := deltaRecs_eq_self hall
  have hget : ∀ k, mapGet (byKeyFinal records) k = deltaCombined records k none := by
    intro k
    rw [byKeyFinal_delta_only hall]
    exact deltaFold_get records [] k
  have hmatch : ∀ k, matchingDelta records k =
      records.filter (fun r => decide (recordKey r = k)) := by
    intro k
    rw [matchingDelta, hds]
  refine ⟨aggregateUsage_keys_nodup records, ?_, ?_, ?_, by decide⟩
  · intro r hr
    obtain ⟨r0, hr0⟩ : ∃ r0, (deltaRecs records).find?
        (fun x => decide (recordKey x = recordKey r)) = some r0 := by
      rw [← Option.isSome_iff_exists, List.find?_isSome]
      exact ⟨r, by rw [hds]; exact hr, by simp⟩
    have hk0 : recordKey r0 = recordKey r := by
      have := List.find?_some hr0
      simpa using this
    have hsome : deltaCombined records (recordKey r) none =
        some { day := r0.day, model := r0.model,
               tokens := sumTokensFrom emptyTotals (matchingDelta records (recordKey r)) } := by
      simp [deltaCombined, hr0]
    have hkv : entryKey
        { day := r0.day, model := r0.model,
          tokens := sumTokensFrom emptyTotals (matchingDelta records (recordKey r)) } =
        recordKey r := by
      rw [entryKey]
      exact hk0
    refine ⟨finalizeEntry
      { day := r0.day, model := r0.model,
        tokens := sumTokensFrom emptyTotals (matchingDelta records (recordKey r)) }, ?_, ?_⟩
    · refine (aggregateUsage_mem records _).mpr ⟨_, ?_, rfl⟩
      rw [hkv, hget]
      exact hsome
    · rw [entryKey_finalizeEntry, hkv]
  · intro e he
    obtain ⟨v, hv, rfl⟩ := (aggregateUsage_mem records e).mp he
    rw [hget] at hv
    cases hfind : (deltaRecs records).find? (fun x => decide (recordKey x = entryKey v)) with
    | none =>
      rw [show deltaCombined records (entryKey v) none = none from by
        simp [deltaCombined, hfind]] at hv
      exact absurd hv (by simp)
    | some r0 =>
      have hr0mem : r0 ∈ records := by
        rw [← hds]
        exact List.mem_of_find?_eq_some hfind
      have hk0 : recordKey r0 = entryKey v := by
        have := List.find?_some hfind
        simpa using this
      exact ⟨r0, hr0mem, by rw [entryKey_finalizeEntry, hk0]⟩
  · intro e he
    obtain ⟨v, hv, rfl⟩ := (aggregateUsage_mem records e).mp he
    rw [hget] at hv
    cases hfind : (deltaRecs records).find? (fun x => decide (recordKey x = entryKey v)) with
    | none =>
      rw [show deltaCombined records (entryKey v) none = none from by
        simp [deltaCombined, hfind]] at hv
      exact absurd hv (by simp)
    | some r0 =>
      have hv2 : v =
          { day := r0.day, model := r0.model,
            tokens := sumTokensFrom emptyTotals (matchingDelta records (entryKey v)) } := by
        have : deltaCombined records (entryKey v) none =
            some { day := r0.day, model := r0.model,
                   tokens := sumTokensFrom emptyTotals (matchingDelta records (entryKey v)) } := by
          simp [deltaCombined, hfind]
        rw [this] at hv
        exact (Option.some.inj hv).symm
      have htok : v.tokens = deltaOnlySum records (entryKey v) := by
        rw [deltaOnlySum, ← hmatch]
        exact congrArg AggregatedUsage.tokens hv2
      have hvnn : reqNonneg v.tokens := by
        rw [htok, deltaOnlySum]
        exact sumTokensFrom_nonneg _ _ reqNonneg_emptyTotals
          (fun r hr => hnn r (List.mem_of_mem_filter hr))
      have hparts := finalizeEntry_parts v
      have htotal := finalizeEntry_total_nonneg v hvnn.1 hvnn.2.1 hvnn.2.2.1 hvnn.2.2.2.1
      rw [entryKey_finalizeEntry]
      refine ⟨?_, ?_, ?_, ?_, ?_⟩
      · rw [hparts.2.2.1, htok]
      · rw [hparts.2.2.2.1, htok]
      · rw [hparts.2.2.2.2.1, htok]
      · rw [hparts.2.2.2.2.2, htok]
      · rw [htotal, htok]

/-- The claim's concrete delta batch, used as the C1 witness input. -/
def sampleDeltaRecords : List UsageRecord :=
  [{ day := "2026-01-02", model := "gpt-4",
     tokens := { input := some 10, output := some 5 },
     source := "a", mode := some Mode.delta },
   { day := "2026-01-02", model := "gpt-4",
     tokens := { input := some 3, output := some 2 },
     source := "b", mode := some Mode.delta }]

/-- Witness for the amended C1 at the claim's concrete batch. -/
theorem aggregateUsage_delta_batches_witness :
    (∀ r ∈ sampleDeltaRecords, r.mode = some Mode.delta) ∧
    (∀ r ∈ sampleDeltaRecords, tokensNonneg r.tokens) ∧
    ((aggregateUsage sampleDeltaRecords).map entryKey).Nodup ∧
    (∀ e ∈ aggregateUsage sampleDeltaRecords,
      e.tokens.input = (deltaOnlySum sampleDeltaRecords (entryKey e)).input ∧
      e.tokens.output = (deltaOnlySum sampleDeltaRecords (entryKey e)).output ∧
      e.tokens.cache = (deltaOnlySum sampleDeltaRecords (entryKey e)).cache ∧
      e.tokens.thinking = (deltaOnlySum sampleDeltaRecords (entryKey e)).thinking ∧
      e.tokens.total = amendedTotal (deltaOnlySum sampleDeltaRecords (entryKey e))) := by
  have hmode : ∀ r ∈ sampleDeltaRecords, r.mode = some Mode.delta := by decide
  have hnn : ∀ r ∈ sampleDeltaRecords, tokensNonneg r.tokens := by
    intro r hr
    simp only [sampleDeltaRecords, List.mem_cons, List.not_mem_nil, or_false] at hr
    rcases hr with rfl | rfl <;>
      exact ⟨by norm_num [optNonneg], by norm_num [optNonneg], trivial, trivial, trivial⟩
  refine ⟨hmode, hnn, ?_, ?_⟩
  · exact (aggregateUsage_delta_batches sampleDeltaRecords hmode hnn).1
  · exact (aggregateUsage_delta_batches sampleDeltaRecords hmode hnn).2.2.2.1

/-- Summed contribution of the non-cumulative records to byKey key `k`. -/
def deltaSum (records : List UsageRecord) (k : String) : RequiredTotals :=
  sumTokensFrom emptyTotals (matchingDelta records k)

/-- Cumulative contribution folded into byKey key `k` by the second loop:
the sum of the per-source group entries (each a per-axis maximum over its
`day::model::source` group) whose `day::model` equals `k`. -/
def cumContrib (records : List UsageRecord) (k : String) : RequiredTotals :=
  addReqFrom emptyTotals
    (entriesFor ((groupKeys records).map fun ck => (ck, cumEntry records ck)) k)

theorem addReqFrom_split (t : RequiredTotals) (es : List AggregatedUsage) :
    addReqFrom t es = addReq t (addReqFrom emptyTotals es) := by
  unfold addReqFrom
  exact foldl_addReq es t

theorem byKeyFinal_tokens (records : List UsageRecord) (k : String) (v : AggregatedUsage)
    (hv : mapGet (byKeyFinal records) k = some v) :
    v.tokens = addReq (deltaSum records k) (cumContrib records k) := by
  rw [byKeyFinal_get] at hv
  cases hd : deltaCombined records k none with
  | some d =>
    rw [hd] at hv
    have hvd : v =
        { d with
            tokens :=
              addReqFrom d.tokens
                (entriesFor ((groupKeys records).map fun ck => (ck, cumEntry records ck)) k) } :=
      (Option.some.inj hv).symm
    have hdt : d.tokens = deltaSum records k := by
      cases hfind : (deltaRecs records).find? (fun r => decide (recordKey r = k)) with
      | none =>
        rw [show deltaCombined records k none = none from by
          simp only [deltaCombined, hfind]] at hd
        exact absurd hd (by simp)
      | some r0 =>
        rw [show deltaCombined records k none = some
            { day := r0.day, model := r0.model,
              tokens := sumTokensFrom emptyTotals (matchingDelta records k) } from by
          simp only [deltaCombined, hfind]] at hd
        rw [← Option.some.inj hd]
        rfl
    rw [congrArg AggregatedUsage.tokens hvd, addReqFrom_split, hdt]
    rfl
  | none =>
    rw [hd] at hv
    cases hfind : (((groupKeys records).map fun ck => (ck, cumEntry records ck)).map
        Prod.snd).find? (fun e => decide (entryKey e = k)) with
    | none =>
      rw [show cumCombined ((groupKeys records).map fun ck => (ck, cumEntry records ck))
          k none = none from by
        simp only [cumCombined, hfind]] at hv
      exact absurd hv (by simp)
    | some e0 =>
      have hve : v =
          { day := e0.day, model := e0.model,
            tokens := addReqFrom emptyTotals
              (entriesFor ((groupKeys records).map fun ck => (ck, cumEntry records ck)) k) } := by
        rw [show cumCombined ((groupKeys records).map fun ck => (ck, cumEntry records ck))
            k none = some
            { day := e0.day, model := e0.model,
              tokens := addReqFrom emptyTotals
                (entriesFor ((groupKeys records).map
                  fun ck => (ck, cumEntry records ck)) k) } from by
          simp only [cumCombined, hfind]] at hv
        exact (Option.some.inj hv).symm
      have hds : deltaSum records k = emptyTotals := by
        cases hdfind : (deltaRecs records).find? (fun r => decide (recordKey r = k)) with
        | some r0 =>
          rw [show deltaCombined records k none = some
              { day := r0.day, model := r0.model,
                tokens := sumTokensFrom emptyTotals (matchingDelta records k) } from by
            simp only [deltaCombined, hdfind]] at hd
          exact absurd hd (by simp)
        | none =>
          have hm : matchingDelta records k = [] := by
            rw [matchingDelta, List.filter_eq_nil_iff]
            intro r hr
            have := List.find?_eq_none.mp hdfind r hr
            simpa using this
          rw [deltaSum, hm]
          rfl
      rw [congrArg AggregatedUsage.tokens hve, hds, addReq_emptyTotals_left]
      rfl

/-- The claim's cumulative scenario: source-a reports (5, 2) then the
reset snapshot (3, 1), and source-b reports (2, 1), all for the same day
and model. -/
def cumScenario : List UsageRecord :=
  [{ day := "2026-01-03", model := "gpt-4",
     tokens := { input := some 5, output := some 2 },
     source := "source-a", mode := some Mode.cumulative },
   { day := "2026-01-03", model := "gpt-4",
     tokens := { input := some 3, output := some 1 },
     source := "source-a", mode := some Mode.cumulative },
   { day := "2026-01-03", model := "gpt-4",
     tokens := { input := some 2, output := some 1 },
     source := "source-b", mode := some Mode.cumulative }]

/-- C5: cumulative-mode records reaching `aggregateUsage` are grouped by
`day::model::source` and each group's entry takes the per-axis maximum
over the group's records (`cumEntry`); every output entry's input, output,
cache and thinking axes equal the summed delta contribution for its
`day::model` key plus the sum of its groups' maxed contributions
(`cumContrib`).  On the claim's scenario — source-a reports cumulative
(input 5, output 2) then (3, 1), source-b reports (2, 1), same day and
model — source-a's group maxes to (5, 2), source-b's to (2, 1), and the
aggregate is input 7, output 3, total 10. -/
theorem aggregateUsage_cumulative_grouping (records : List UsageRecord) :
    (∀ ck, (cumEntry records ck).tokens =
      maxTokensFrom emptyTotals (matchingCum records ck)) ∧
    (∀ e ∈ aggregateUsage records,
      e.tokens.input =
        (addReq (deltaSum records (entryKey e)) (cumContrib records (entryKey e))).input ∧
      e.tokens.output =
        (addReq (deltaSum records (entryKey e)) (cumContrib records (entryKey e))).output ∧
      e.tokens.cache =
        (addReq (deltaSum records (entryKey e)) (cumContrib records (entryKey e))).cache ∧
      e.tokens.thinking =
        (addReq (deltaSum records (entryKey e)) (cumContrib records (entryKey e))).thinking) ∧
    aggregateUsage cumScenario =
      [{ day := "2026-01-03", model := "gpt-4",
         tokens := { input := 7, output := 3, cache := 0, thinking := 0, total := 10 } }] := by
  refine ⟨?_, ?_, by decide⟩
  · intro ck
    cases hfind : (cumRecs records).find? (fun r => decide (cumGroupKey r = ck)) with
    | some r0 =>
      simp only [cumEntry, hfind]
    | none =>
      have hm : matchingCum records ck = [] := by
        rw [matchingCum, List.filter_eq_nil_iff]
        intro r hr
        have := List.find?_eq_none.mp hfind r hr
        simpa using this
      simp only [cumEntry, hfind, hm]
      rfl
  · intro e he
    obtain ⟨v, hv, rfl⟩ := (aggregateUsage_mem records e).mp he
    have htok := byKeyFinal_tokens records (entryKey v) v hv
    have hparts := finalizeEntry_parts v
    rw [entryKey_finalizeEntry]
    refine ⟨?_, ?_, ?_, ?_⟩
    · rw [hparts.2.2.1, htok]
    · rw [hparts.2.2.2.1, htok]
    · rw [hparts.2.2.2.2.1, htok]
    · rw [hparts.2.2.2.2.2, htok]

end Brag
